import Mathlib

/-!
# NAR info records (`src/libstore/nar-info.cc`)

A shallow embedding of the `NarInfo` text format of the store: the parsing
constructor `NarInfo::NarInfo(s, whence)`, the serializer `NarInfo::to_string`,
the fingerprint builder `NarInfo::fingerprint`, `NarInfo::shortRefs`, and the
signature operations `NarInfo::sign` and `NarInfo::checkSignatures`.

* `std::string` is a list of characters, positions are natural numbers and
  `std::string::npos` is `none`.
* `std::set<std::string>` is a strictly ascending list of strings (the order a
  set is iterated in), so that two sets are equal exactly when they hold the
  same strings.
* A thrown `Error` is the `Except.error` result; the `assert`s of `to_string`
  make it return `none` when they fail.
* The collaborators that live in other translation units (`isStorePath`,
  `parseHashType`, `printHashType`, `parseHash16or32`, `printHash32`,
  `string2Int`, `baseNameOf`, `settings.nixStore`, and the detached-signature
  primitives) are fields of the structures `Env` and `Crypto`.
-/

namespace nix

/-- A `std::string`: a finite sequence of characters. -/
abbrev Str := List Char

/-! ## `std::string` operations -/

/-- Index of the first occurrence of `c` in `t`, if any. -/
def findIn (c : Char) : Str → Option Nat
  | [] => none
  | x :: xs => if x = c then some 0 else (findIn c xs).map (· + 1)

/-- The call `s.find(c, pos)`: position of the first `c` at or after `pos`;
`none` stands for `std::string::npos`. -/
def find (s : Str) (c : Char) (pos : Nat) : Option Nat :=
  (findIn c (s.drop pos)).map (· + pos)

/-- The substring constructor `std::string(s, pos, len)`. -/
def substr (s : Str) (pos len : Nat) : Str :=
  (s.drop pos).take len

/-- The call `std::to_string(n)` on an unsigned integer: its decimal digits. -/
def std_to_string (n : Nat) : Str :=
  Nat.toDigits 10 n

/-! ## `std::set<std::string>`

A set is the list of its elements in ascending order. The three lemmas of this
section show that insertion keeps a list ascending, which the definition of
insertion on sets needs. -/

/-- The order of `std::string::operator<`: lexicographic on character codes. -/
def strLt : Str → Str → Bool
  | [], [] => false
  | [], _ :: _ => true
  | _ :: _, [] => false
  | a :: as, b :: bs =>
    if a.toNat < b.toNat then true
    else if b.toNat < a.toNat then false
    else strLt as bs

/-- Strictly ascending lists: the contents of a `std::set` in iteration order. -/
def isAscending : List Str → Bool
  | [] => true
  | x :: xs => xs.all (fun y => strLt x y) && isAscending xs

/-- Insertion of `x` at its place in an ascending list; an element that is
already there (neither smaller nor greater than `x`) is kept and `x` dropped. -/
def insertAscending (x : Str) : List Str → List Str
  | [] => [x]
  | y :: ys =>
    if strLt x y then x :: y :: ys
    else if strLt y x then y :: insertAscending x ys
    else y :: ys

theorem strLt_trans : ∀ (a b c : Str), strLt a b = true → strLt b c = true → strLt a c = true
  | [], [], _, h, _ => by simp [strLt] at h
  | [], _ :: _, [], _, h => by simp [strLt] at h
  | [], _ :: _, _ :: _, _, _ => by simp [strLt]
  | _ :: _, [], _, h, _ => by simp [strLt] at h
  | _ :: _, _ :: _, [], _, h => by simp [strLt] at h
  | x :: xs, y :: ys, z :: zs, h₁, h₂ => by
    simp only [strLt] at h₁ h₂ ⊢
    have ih := strLt_trans xs ys zs
    split_ifs at h₁ h₂ ⊢ <;> first | rfl | omega | exact ih h₁ h₂

theorem mem_insertAscending {x z : Str} : ∀ {l : List Str},
    z ∈ insertAscending x l → z = x ∨ z ∈ l
  | [], h => by simpa [insertAscending] using h
  | y :: ys, h => by
    simp only [insertAscending] at h
    split_ifs at h
    · simpa using h
    · rcases List.mem_cons.1 h with h | h
      · exact Or.inr (by simp [h])
      · rcases mem_insertAscending h with h | h
        · exact Or.inl h
        · exact Or.inr (List.mem_cons_of_mem _ h)
    · exact Or.inr h

theorem isAscending_insertAscending (x : Str) : ∀ (l : List Str),
    isAscending l = true → isAscending (insertAscending x l) = true
  | [], _ => by simp [insertAscending, isAscending]
  | y :: ys, h => by
    simp only [isAscending, Bool.and_eq_true, List.all_eq_true] at h
    simp only [insertAscending]
    split_ifs with h₁ h₂
    · simp only [isAscending, Bool.and_eq_true, List.all_eq_true]
      refine ⟨?_, h.1, h.2⟩
      intro z hz
      rcases List.mem_cons.1 hz with hz | hz
      · simpa [hz] using h₁
      · exact strLt_trans _ _ _ h₁ (h.1 z hz)
    · simp only [isAscending, Bool.and_eq_true, List.all_eq_true]
      refine ⟨?_, isAscending_insertAscending x ys h.2⟩
      intro z hz
      rcases mem_insertAscending hz with hz | hz
      · simpa [hz] using h₂
      · exact h.1 z hz
    · simp only [isAscending, Bool.and_eq_true, List.all_eq_true]
      exact h

/-- A `std::set<std::string>` (`StringSet`, `PathSet`): its elements in
iteration order, which is strictly ascending. -/
abbrev StringSet := { l : List Str // isAscending l = true }

/-- The empty set. -/
def StringSet.empty : StringSet := ⟨[], rfl⟩

/-- The call `set.insert(x)`. -/
def StringSet.insert (s : StringSet) (x : Str) : StringSet :=
  ⟨insertAscending x s.val, isAscending_insertAscending x s.val s.property⟩

/-- The elements of the set, in iteration order. -/
def StringSet.toList (s : StringSet) : List Str := s.val

/-! ## Utility functions of the store library -/

/-- Modelled from the spec: `tokenizeString<Strings>(s, separators)` is defined
in the utility library, outside this translation unit. The value of a
`References` line is a list of bare names separated by separator characters:
the tokens are the maximal non-empty runs of characters that are not
separators. `cur` is the token being read. -/
def tokenizeFrom (separators : Str) : Str → Str → List Str
  | cur, [] => if cur = [] then [] else [cur]
  | cur, c :: cs =>
    if c ∈ separators then
      (if cur = [] then tokenizeFrom separators [] cs
       else cur :: tokenizeFrom separators [] cs)
    else tokenizeFrom separators (cur ++ [c]) cs

/-- Modelled from the spec: `tokenizeString<Strings>(s, separators)`, see
`tokenizeFrom`. -/
def tokenizeString (s : Str) (separators : Str) : List Str :=
  tokenizeFrom separators [] s

/-- Modelled from the spec: `concatStringsSep(sep, ss)` is defined in the
utility library, outside this translation unit. It joins the strings of `ss`,
in order, with `sep` between consecutive strings. -/
def concatStringsSep (sep : Str) : List Str → Str
  | [] => []
  | [x] => x
  | x :: y :: rest => x ++ sep ++ concatStringsSep sep (y :: rest)

/-! ## Hashes -/

/-- Modelled from the spec: the enumeration `HashType` is declared in the hash
library, outside this translation unit; this file names `htUnknown` and
`htSHA256`. -/
inductive HashType where
  | htUnknown
  | htMD5
  | htSHA1
  | htSHA256
  | htSHA512
  deriving DecidableEq, Repr

/-- Modelled from the spec: a typed digest (`Hash`): an algorithm and the
digest bytes. -/
structure Hash where
  type : HashType
  hash : List Nat
  deriving DecidableEq, Repr

/-- The default-constructed `Hash`: unknown algorithm, no digest. -/
def Hash.default : Hash := ⟨HashType.htUnknown, []⟩

/-! ## Collaborators -/

/-- The functions and settings this translation unit calls and does not
define. `parseHash16or32` returns `none` when it throws; `string2Int` returns
`none` when it returns `false`, and the parsed number otherwise. -/
structure Env where
  nixStore : Str
  isStorePath : Str → Bool
  parseHashType : Str → HashType
  printHashType : HashType → Str
  parseHash16or32 : HashType → Str → Option Hash
  printHash32 : Hash → Str
  string2Int : Str → Option Nat
  baseNameOf : Str → Str

/-- The detached-signature primitives of the crypto library:
`secretKey.signDetached(data)` and `verifyDetached(data, sig, publicKeys)`. -/
structure Crypto (SecretKey PublicKeys : Type) where
  signDetached : SecretKey → Str → Str
  verifyDetached : Str → Str → PublicKeys → Bool

/-! ## The record -/

/-- The fields of `NarInfo` (with those it inherits from `ValidPathInfo`) that
this translation unit reads or writes. The sizes are unsigned 64-bit integers
in the source; no arithmetic is done on them here, they are only read by
`string2Int` and printed by `std::to_string`. -/
structure NarInfo where
  path : Str
  url : Str
  compression : Str
  fileHash : Hash
  fileSize : Nat
  narHash : Hash
  narSize : Nat
  references : StringSet
  deriver : Str
  system : Str
  sigs : StringSet
  deriving DecidableEq

/-- The members of a `NarInfo` before the constructor body runs: empty
strings, default hashes, zero sizes, empty sets. -/
def NarInfo.init : NarInfo where
  path := []
  url := []
  compression := []
  fileHash := Hash.default
  fileSize := 0
  narHash := Hash.default
  narSize := 0
  references := StringSet.empty
  deriver := []
  system := []
  sigs := StringSet.empty

/-- The outcomes of the parsing constructor other than a record. `CorruptInfo`
is the thrown `Error`; `OutOfFuel` is the embedding running out of loop
iterations, which `NarInfo.parse` never does. -/
inductive Error where
  | CorruptInfo
  | OutOfFuel
  deriving DecidableEq, Repr

/-! ## The parsing constructor -/

/-- The lambda `corrupt`: throws. -/
def corrupt {α : Type} : Except Error α := Except.error Error.CorruptInfo

/-- The lambda `parseHashField`. -/
def parseHashField (E : Env) (s : Str) : Except Error Hash :=
  match find s ':' 0 with
  | none => corrupt
  | some colon =>
    let ht := E.parseHashType (substr s 0 colon)
    if ht = HashType.htUnknown then corrupt
    else
      match E.parseHash16or32 ht (s.drop (colon + 1)) with
      | none => corrupt
      | some h => Except.ok h

/-- The loop `for (auto & r : refs)` of the `References` branch. -/
def insertRefs (E : Env) : List Str → StringSet → Except Error StringSet
  | [], references => Except.ok references
  | r :: refs, references =>
    let r2 := E.nixStore ++ "/".toList ++ r
    if !E.isStorePath r2 then corrupt
    else insertRefs E refs (references.insert r2)

/-- The `if`/`else if` chain on `name` in the body of the scan loop. -/
def processField (E : Env) (name value : Str) (r : NarInfo) : Except Error NarInfo :=
  if name = "StorePath".toList then
    if !E.isStorePath value then corrupt
    else Except.ok { r with path := value }
  else if name = "URL".toList then
    Except.ok { r with url := value }
  else if name = "Compression".toList then
    Except.ok { r with compression := value }
  else if name = "FileHash".toList then
    match parseHashField E value with
    | Except.error e => Except.error e
    | Except.ok h => Except.ok { r with fileHash := h }
  else if name = "FileSize".toList then
    match E.string2Int value with
    | none => corrupt
    | some n => Except.ok { r with fileSize := n }
  else if name = "NarHash".toList then
    match parseHashField E value with
    | Except.error e => Except.error e
    | Except.ok h => Except.ok { r with narHash := h }
  else if name = "NarSize".toList then
    match E.string2Int value with
    | none => corrupt
    | some n => Except.ok { r with narSize := n }
  else if name = "References".toList then
    let refs := tokenizeString value " ".toList
    if r.references.toList ≠ [] then corrupt
    else
      match insertRefs E refs r.references with
      | Except.error e => Except.error e
      | Except.ok s => Except.ok { r with references := s }
  else if name = "Deriver".toList then
    let p := E.nixStore ++ "/".toList ++ value
    if !E.isStorePath p then corrupt
    else Except.ok { r with deriver := p }
  else if name = "System".toList then
    Except.ok { r with system := value }
  else if name = "Sig".toList then
    Except.ok { r with sigs := r.sigs.insert value }
  else Except.ok r

/-- The loop `while (pos < s.size())`; every iteration uses one unit of `fuel`. -/
def parseLoop (E : Env) (s : Str) : Nat → Nat → NarInfo → Except Error NarInfo
  | 0, pos, r => if pos < s.length then Except.error Error.OutOfFuel else Except.ok r
  | fuel + 1, pos, r =>
    if pos < s.length then
      match find s ':' pos with
      | none => corrupt
      | some colon =>
        let name := substr s pos (colon - pos)
        match find s '\n' (colon + 2) with
        | none => corrupt
        | some eol =>
          let value := substr s (colon + 2) (eol - colon - 2)
          match processField E name value r with
          | Except.error e => Except.error e
          | Except.ok r' => parseLoop E s fuel (eol + 1) r'
    else Except.ok r

/-- The statements after the loop: the default compression and the check
that `path` and `url` are set. -/
def finish (r : NarInfo) : Except Error NarInfo :=
  let r' := if r.compression = [] then { r with compression := "bzip2".toList } else r
  if r'.path = [] ∨ r'.url = [] then corrupt else Except.ok r'

/-- The constructor `NarInfo::NarInfo(s, whence)`, under the name `parse`: the
name `NarInfo.NarInfo` would hide the structure `NarInfo` in every definition
of its namespace. Every iteration of the loop moves `pos` forward, so
`s.length` iterations are enough. -/
def NarInfo.parse (E : Env) (s : Str) (whence : Str) : Except Error NarInfo :=
  let _ := whence
  match parseLoop E s s.length 0 NarInfo.init with
  | Except.error e => Except.error e
  | Except.ok r => finish r

/-! ## Serializer, fingerprint, signatures -/

/-- The method `NarInfo::shortRefs`. -/
def NarInfo.shortRefs (E : Env) (r : NarInfo) : List Str :=
  r.references.toList.map E.baseNameOf

/-- The loop `for (auto sig : sigs) res += "Sig: " + sig + "\n"`. -/
def appendSigs : Str → List Str → Str
  | res, [] => res
  | res, sig :: sigs => appendSigs (res ++ ("Sig: ".toList ++ sig ++ "\n".toList)) sigs

/-- The method `NarInfo::to_string`; `none` when one of its assertions fails. -/
def NarInfo.to_string (E : Env) (r : NarInfo) : Option Str :=
  let res : Str := []
  let res := res ++ ("StorePath: ".toList ++ r.path ++ "\n".toList)
  let res := res ++ ("URL: ".toList ++ r.url ++ "\n".toList)
  if r.compression = [] then none else
  let res := res ++ ("Compression: ".toList ++ r.compression ++ "\n".toList)
  if r.fileHash.type ≠ HashType.htSHA256 then none else
  let res := res ++ ("FileHash: sha256:".toList ++ E.printHash32 r.fileHash ++ "\n".toList)
  let res := res ++ ("FileSize: ".toList ++ std_to_string r.fileSize ++ "\n".toList)
  if r.narHash.type ≠ HashType.htSHA256 then none else
  let res := res ++ ("NarHash: sha256:".toList ++ E.printHash32 r.narHash ++ "\n".toList)
  let res := res ++ ("NarSize: ".toList ++ std_to_string r.narSize ++ "\n".toList)
  let res := res ++ ("References: ".toList
    ++ concatStringsSep " ".toList (r.shortRefs E) ++ "\n".toList)
  let res := if r.deriver ≠ [] then
      res ++ ("Deriver: ".toList ++ E.baseNameOf r.deriver ++ "\n".toList)
    else res
  let res := if r.system ≠ [] then
      res ++ ("System: ".toList ++ r.system ++ "\n".toList)
    else res
  some (appendSigs res r.sigs.toList)

/-- The method `NarInfo::fingerprint`. -/
def NarInfo.fingerprint (E : Env) (r : NarInfo) : Str :=
  "1;".toList ++ r.path ++ ";".toList
    ++ E.printHashType r.narHash.type ++ ":".toList ++ E.printHash32 r.narHash ++ ";".toList
    ++ std_to_string r.narSize ++ ";".toList
    ++ concatStringsSep ",".toList r.references.toList

/-- The method `NarInfo::sign`. -/
def NarInfo.sign {SecretKey PublicKeys : Type} (E : Env) (C : Crypto SecretKey PublicKeys)
    (r : NarInfo) (secretKey : SecretKey) : NarInfo :=
  { r with sigs := r.sigs.insert (C.signDetached secretKey (r.fingerprint E)) }

/-- The loop of `NarInfo::checkSignatures`, `good` being the running count. -/
def countGood {SecretKey PublicKeys : Type} (E : Env) (C : Crypto SecretKey PublicKeys)
    (r : NarInfo) (publicKeys : PublicKeys) : Nat → List Str → Nat
  | good, [] => good
  | good, sig :: sigs =>
    if C.verifyDetached (r.fingerprint E) sig publicKeys then
      countGood E C r publicKeys (good + 1) sigs
    else countGood E C r publicKeys good sigs

/-- The method `NarInfo::checkSignatures`. The counter is an `unsigned int` in
the source; it counts elements of `sigs`, one step at a time. -/
def NarInfo.checkSignatures {SecretKey PublicKeys : Type} (E : Env)
    (C : Crypto SecretKey PublicKeys) (r : NarInfo) (publicKeys : PublicKeys) : Nat :=
  countGood E C r publicKeys 0 r.sigs.toList

/-! ## A sample environment

A concrete choice of the collaborators, used to evaluate the operations on
concrete inputs: the store root is `/nix/store`, and a store path is the store
root, a slash, and a non-empty name without a slash. The texts below that are
shown to be accepted use names that begin with 32 characters of the digest
alphabet, as the names of a real store do. -/

/-- Whether `p` is a prefix of `s`. -/
def startsWith (p : Str) (s : Str) : Bool := s.take p.length == p

/-- The digits of the sample digest encoding. -/
def sampleAlphabet : Str := "0123456789abcdfghijklmnpqrsvwxyz".toList

/-- The sample digest encoding: two digits per byte. -/
def sampleEncode : List Nat → Str
  | [] => []
  | b :: bs => sampleAlphabet.getD (b / 32) '0' :: sampleAlphabet.getD (b % 32) '0'
      :: sampleEncode bs

/-- The inverse of `sampleEncode`; fails on an odd number of characters, on a
character that is not a digit, and on a pair that encodes no byte. -/
def sampleDecode : Str → Option (List Nat)
  | [] => some []
  | [_] => none
  | c :: d :: cs =>
    match findIn c sampleAlphabet, findIn d sampleAlphabet, sampleDecode cs with
    | some hi, some lo, some bs => if hi < 8 then some ((hi * 32 + lo) :: bs) else none
    | _, _, _ => none

/-- The value of a string of decimal digits, `acc` being the value read so far. -/
def sampleDecimal : Nat → Str → Option Nat
  | acc, [] => some acc
  | acc, c :: cs =>
    if '0'.toNat ≤ c.toNat ∧ c.toNat ≤ '9'.toNat then
      sampleDecimal (acc * 10 + (c.toNat - '0'.toNat)) cs
    else none

/-- The part of `p` after its last slash, `cur` being the part read since the
last slash seen. -/
def sampleBaseName : Str → Str → Str
  | cur, [] => cur
  | cur, c :: cs => if c = '/' then sampleBaseName [] cs else sampleBaseName (cur ++ [c]) cs

/-- The sample environment. -/
def sampleEnv : Env where
  nixStore := "/nix/store".toList
  isStorePath := fun p =>
    startsWith "/nix/store/".toList p
      && decide ((p.drop 11) ≠ []) && decide ('/' ∉ p.drop 11)
  parseHashType := fun s =>
    if s = "md5".toList then HashType.htMD5
    else if s = "sha1".toList then HashType.htSHA1
    else if s = "sha256".toList then HashType.htSHA256
    else if s = "sha512".toList then HashType.htSHA512
    else HashType.htUnknown
  printHashType := fun ht =>
    match ht with
    | HashType.htMD5 => "md5".toList
    | HashType.htSHA1 => "sha1".toList
    | HashType.htSHA256 => "sha256".toList
    | HashType.htSHA512 => "sha512".toList
    | HashType.htUnknown => []
  parseHash16or32 := fun ht s => (sampleDecode s).map (fun bs => ⟨ht, bs⟩)
  printHash32 := fun h => sampleEncode h.hash
  string2Int := fun s =>
    if s = [] then none
    else (sampleDecimal 0 s).bind (fun n => if n < 2 ^ 64 then some n else none)
  baseNameOf := sampleBaseName []

/-- A sample signature scheme: a key is a name, public and secret key of a
pair have the same name, and the signature of `data` under the key `k` is
`k` followed by a colon and `data`. -/
def sampleCrypto : Crypto Str (List Str) where
  signDetached := fun k data => k ++ ":".toList ++ data
  verifyDetached := fun data sig publicKeys =>
    publicKeys.any (fun k => decide (sig = k ++ ":".toList ++ data))

/-- The text `to_string` builds when its assertions hold. -/
def canonicalText (E : Env) (r : NarInfo) : Str :=
  "StorePath: ".toList ++ r.path ++ "\n".toList
    ++ ("URL: ".toList ++ r.url ++ "\n".toList)
    ++ ("Compression: ".toList ++ r.compression ++ "\n".toList)
    ++ ("FileHash: sha256:".toList ++ E.printHash32 r.fileHash ++ "\n".toList)
    ++ ("FileSize: ".toList ++ (Nat.repr r.fileSize).toList ++ "\n".toList)
    ++ ("NarHash: sha256:".toList ++ E.printHash32 r.narHash ++ "\n".toList)
    ++ ("NarSize: ".toList ++ (Nat.repr r.narSize).toList ++ "\n".toList)
    ++ ("References: ".toList
        ++ " ".toList.intercalate (r.references.toList.map E.baseNameOf) ++ "\n".toList)
    ++ (if r.deriver = [] then []
        else "Deriver: ".toList ++ E.baseNameOf r.deriver ++ "\n".toList)
    ++ (if r.system = [] then [] else "System: ".toList ++ r.system ++ "\n".toList)
    ++ (r.sigs.toList.map (fun sig => "Sig: ".toList ++ sig ++ "\n".toList)).flatten

/-- The scan loop as a function of the text that remains after `pos`. -/
def parseTail (E : Env) : Nat → Str → NarInfo → Except Error NarInfo
  | 0, t, r => if t = [] then Except.ok r else Except.error Error.OutOfFuel
  | fuel + 1, t, r =>
    if t = [] then Except.ok r
    else
      match findIn ':' t with
      | none => corrupt
      | some i =>
        match findIn '\n' (t.drop (i + 2)) with
        | none => corrupt
        | some j =>
          match processField E (t.take i) ((t.drop (i + 2)).take j) r with
          | Except.error e => Except.error e
          | Except.ok r' => parseTail E fuel (t.drop (i + 2 + j + 1)) r'

/-- The scan loop run on the text `t` from its start with the record `r`. -/
def scan (E : Env) (t : Str) (r : NarInfo) : Except Error NarInfo :=
  parseTail E t.length t r

/-- The names and values of the fields the scan loop hands to the field
dispatch, in order: the loop of `parseLoop`, collecting every `name` and
`value` it computes up to the end of the text or the first failure (the field
whose processing fails is the last one listed). -/
def processedFields (E : Env) (s : Str) : Nat → Nat → NarInfo → List (Str × Str)
  | 0, _, _ => []
  | fuel + 1, pos, r =>
    if pos < s.length then
      match find s ':' pos with
      | none => []
      | some colon =>
        let name := substr s pos (colon - pos)
        match find s '\n' (colon + 2) with
        | none => []
        | some eol =>
          let value := substr s (colon + 2) (eol - colon - 2)
          (name, value) ::
            match processField E name value r with
            | Except.error _ => []
            | Except.ok r' => processedFields E s fuel (eol + 1) r'
    else []

/-- The fields the constructor processes on the text `s`. -/
def NarInfo.processed (E : Env) (s : Str) : List (Str × Str) :=
  processedFields E s s.length 0 NarInfo.init

/-- The processed fields as a function of the text that remains after `pos`. -/
def fieldsTail (E : Env) : Nat → Str → NarInfo → List (Str × Str)
  | 0, _, _ => []
  | fuel + 1, t, r =>
    if t = [] then []
    else
      match findIn ':' t with
      | none => []
      | some i =>
        match findIn '\n' (t.drop (i + 2)) with
        | none => []
        | some j =>
          (t.take i, (t.drop (i + 2)).take j) ::
            match processField E (t.take i) ((t.drop (i + 2)).take j) r with
            | Except.error _ => []
            | Except.ok r' => fieldsTail E fuel (t.drop (i + 2 + j + 1)) r'

/-- The fields processed when the scan loop runs on `t` with the record `r`. -/
def fieldsOf (E : Env) (t : Str) (r : NarInfo) : List (Str × Str) :=
  fieldsTail E t.length t r

/-- A complete line of the text: a name, the colon, the character after the
colon, the value, the newline. -/
structure Line where
  name : Str
  sep : Char
  value : Str

/-- The characters of a line. -/
def Line.text (l : Line) : Str := l.name ++ ':' :: l.sep :: (l.value ++ ['\n'])

/-- The name holds no colon and the value no newline, so that the scan loop
reads the line as it was written. -/
def Line.WellFormed (l : Line) : Prop := ':' ∉ l.name ∧ '\n' ∉ l.value

instance (l : Line) : Decidable l.WellFormed := by
  unfold Line.WellFormed
  infer_instance

/-- The text made of the lines `L`, in order. -/
def renderLines (L : List Line) : Str := (L.map Line.text).flatten

/-- The field dispatch run on the lines `L`, in order, up to the first failure. -/
def processFields (E : Env) : List Line → NarInfo → Except Error NarInfo
  | [], r => Except.ok r
  | l :: ls, r =>
    match processField E l.name l.value r with
    | Except.error e => Except.error e
    | Except.ok r' => processFields E ls r'

/-- The lines of a text: the maximal runs of characters that a newline ends,
and the tail after the last newline when it is not empty. `cur` is the line
being read. -/
def textLines : Str → Str → List Str
  | cur, [] => if cur = [] then [] else [cur]
  | cur, c :: cs => if c = '\n' then cur :: textLines [] cs else textLines (cur ++ [c]) cs

/-- The records that the text format can carry in the environment `E`: the
conditions under which the constructor reads back what `to_string` wrote. -/
structure RoundTrips (E : Env) (r : NarInfo) : Prop where
  compression_ne : r.compression ≠ []
  fileHash_sha256 : r.fileHash.type = HashType.htSHA256
  narHash_sha256 : r.narHash.type = HashType.htSHA256
  path_ne : r.path ≠ []
  path_valid : E.isStorePath r.path = true
  url_ne : r.url ≠ []
  path_line : '\n' ∉ r.path
  url_line : '\n' ∉ r.url
  compression_line : '\n' ∉ r.compression
  system_line : '\n' ∉ r.system
  sigs_line : ∀ sig ∈ r.sigs.toList, '\n' ∉ sig
  sha256_name : E.parseHashType "sha256".toList = HashType.htSHA256
  fileHash_line : '\n' ∉ E.printHash32 r.fileHash
  fileHash_parse :
    E.parseHash16or32 HashType.htSHA256 (E.printHash32 r.fileHash) = some r.fileHash
  narHash_line : '\n' ∉ E.printHash32 r.narHash
  narHash_parse :
    E.parseHash16or32 HashType.htSHA256 (E.printHash32 r.narHash) = some r.narHash
  fileSize_parse : E.string2Int (std_to_string r.fileSize) = some r.fileSize
  narSize_parse : E.string2Int (std_to_string r.narSize) = some r.narSize
  references_ok : ∀ p ∈ r.references.toList,
    E.isStorePath p = true ∧ p = E.nixStore ++ "/".toList ++ E.baseNameOf p
      ∧ E.baseNameOf p ≠ [] ∧ ' ' ∉ E.baseNameOf p ∧ '\n' ∉ E.baseNameOf p
  deriver_ok : r.deriver ≠ [] →
    E.isStorePath r.deriver = true ∧ r.deriver = E.nixStore ++ "/".toList ++ E.baseNameOf r.deriver
      ∧ '\n' ∉ E.baseNameOf r.deriver

/-- What the scan loop maintains of the record it builds: a path, once set,
is a store path; the strings read from a line hold no newline; a reference is
a store path made of the store root, a slash and a non-empty name without
space or newline; a deriver, once set, is a store path made of the store root,
a slash and a name without newline. -/
structure Parsed (E : Env) (r : NarInfo) : Prop where
  path_ok : r.path = [] ∨ E.isStorePath r.path = true
  path_line : '\n' ∉ r.path
  url_line : '\n' ∉ r.url
  compression_line : '\n' ∉ r.compression
  system_line : '\n' ∉ r.system
  sigs_line : ∀ sig ∈ r.sigs.toList, '\n' ∉ sig
  references_ok : ∀ p ∈ r.references.toList,
    E.isStorePath p = true
      ∧ ∃ n, p = E.nixStore ++ "/".toList ++ n ∧ n ≠ [] ∧ ' ' ∉ n ∧ '\n' ∉ n
  deriver_ok : r.deriver = [] ∨
    (E.isStorePath r.deriver = true ∧ ∃ n, r.deriver = E.nixStore ++ "/".toList ++ n ∧ '\n' ∉ n)

/-- The value of the last line of `L` whose name is `name`, if there is one. -/
def lastValue (name : Str) : List Line → Option Str
  | [] => none
  | l :: ls =>
    match lastValue name ls with
    | some v => some v
    | none => if l.name = name then some l.value else none

/-- The record of the end-to-end example: `/nix/store/abc-foo` with two
references, sha256 hashes, no deriver, no system, no signatures. -/
def exampleRecord : NarInfo where
  path := "/nix/store/abc-foo".toList
  url := "nar/xyz.nar.bz2".toList
  compression := "bzip2".toList
  fileHash := ⟨HashType.htSHA256, [10, 43]⟩
  fileSize := 100
  narHash := ⟨HashType.htSHA256, [12, 77]⟩
  narSize := 200
  references := ⟨["/nix/store/abc-foo".toList, "/nix/store/def-bar".toList], by decide⟩
  deriver := []
  system := []
  sigs := StringSet.empty

/-- A record with the path, nar hash, nar size and references of
`exampleRecord`, and every other field different. -/
def exampleRecordOther : NarInfo where
  path := "/nix/store/abc-foo".toList
  url := "nar/other.nar.xz".toList
  compression := "xz".toList
  fileHash := ⟨HashType.htSHA256, [1, 2, 3]⟩
  fileSize := 7
  narHash := ⟨HashType.htSHA256, [12, 77]⟩
  narSize := 200
  references := ⟨["/nix/store/abc-foo".toList, "/nix/store/def-bar".toList], by decide⟩
  deriver := "/nix/store/ghi-baz.drv".toList
  system := "x86_64-linux".toList
  sigs := ⟨["key:sig".toList], by decide⟩

/-- The record the sample texts with the references `abc` and `def` parse to. -/
def exampleRefsRecord : NarInfo where
  path := "/nix/store/abc-foo".toList
  url := "nar/xyz.nar.bz2".toList
  compression := "bzip2".toList
  fileHash := ⟨HashType.htSHA256, [10, 43]⟩
  fileSize := 0
  narHash := ⟨HashType.htSHA256, [12, 77]⟩
  narSize := 0
  references := ⟨["/nix/store/abc".toList, "/nix/store/def".toList], by decide⟩
  deriver := []
  system := []
  sigs := StringSet.empty

/-- A record with sha256 hashes, a store path, one reference, and a url that
holds a newline. -/
def exampleRecordNewline : NarInfo where
  path := "/nix/store/0123456789abcdfghijklmnpqrsvwxyz-foo".toList
  url := "nar/foo.nar\nSystem: evil".toList
  compression := "bzip2".toList
  fileHash := ⟨HashType.htSHA256, [10, 43]⟩
  fileSize := 100
  narHash := ⟨HashType.htSHA256, [12, 77]⟩
  narSize := 200
  references := ⟨["/nix/store/0123456789abcdfghijklmnpqrsvwxyz-foo".toList], by decide⟩
  deriver := []
  system := []
  sigs := StringSet.empty

/-- The record that is read back from the text of `exampleRecordNewline`. -/
def exampleRecordReadBack : NarInfo :=
  { exampleRecordNewline with url := "nar/foo.nar".toList, system := "evil".toList }

theorem concatStringsSep_eq_intercalate (sep : Str) :
    ∀ l : List Str, concatStringsSep sep l = sep.intercalate l
  | [] => by simp [concatStringsSep, List.intercalate]
  | [x] => by simp [concatStringsSep, List.intercalate]
  | x :: y :: rest => by
    have ih := concatStringsSep_eq_intercalate sep (y :: rest)
    simp only [concatStringsSep, ih, List.intercalate, List.intersperse, List.flatten,
      List.append_assoc]

theorem appendSigs_eq : ∀ (sigs : List Str) (res : Str),
    appendSigs res sigs
      = res ++ (sigs.map (fun sig => "Sig: ".toList ++ sig ++ "\n".toList)).flatten
  | [], res => by simp [appendSigs]
  | sig :: sigs, res => by
    simp only [appendSigs, appendSigs_eq sigs, List.map_cons, List.flatten, List.append_assoc]

theorem to_string_eq_canonicalText (E : Env) (r : NarInfo) (hc : r.compression ≠ [])
    (hf : r.fileHash.type = HashType.htSHA256) (hn : r.narHash.type = HashType.htSHA256) :
    r.to_string E = some (canonicalText E r) := by
  have hd : std_to_string r.fileSize = (Nat.repr r.fileSize).toList := rfl
  have hd' : std_to_string r.narSize = (Nat.repr r.narSize).toList := rfl
  simp only [NarInfo.to_string, canonicalText, hc, hf, hn, if_false, ne_eq, not_true_eq_false,
    appendSigs_eq, NarInfo.shortRefs, concatStringsSep_eq_intercalate, hd, hd',
    List.nil_append, ite_not, Option.some.injEq]
  by_cases h₁ : r.deriver = [] <;> by_cases h₂ : r.system = [] <;>
    simp [h₁, h₂, List.append_assoc]

theorem fingerprint_eq (E : Env) (r : NarInfo) :
    r.fingerprint E
      = "1;".toList ++ r.path ++ ";".toList
        ++ E.printHashType r.narHash.type ++ ":".toList ++ E.printHash32 r.narHash
        ++ ";".toList ++ (Nat.repr r.narSize).toList ++ ";".toList
        ++ ",".toList.intercalate r.references.toList := by
  have hd : std_to_string r.narSize = (Nat.repr r.narSize).toList := rfl
  simp only [NarInfo.fingerprint, concatStringsSep_eq_intercalate, hd]

/-! ## Claims on the fingerprint and the serializer -/

/-- C2: the fingerprint of a record is `1;`, the path, `;`, the printed type of
the nar hash, `:`, the base-32 print of the nar hash, `;`, the nar size in
decimal, `;`, and the references as full paths joined by commas in the
iteration order of the set. For the record of the end-to-end example
(path `/nix/store/abc-foo`, nar size 200, references `/nix/store/abc-foo`
and `/nix/store/def-bar`, a sha256 nar hash printed as `sha256`) it is
`1;/nix/store/abc-foo;sha256:<b32>;200;/nix/store/abc-foo,/nix/store/def-bar`. -/
theorem fingerprint_format (E : Env) (r : NarInfo) :
    r.fingerprint E
        = "1;".toList ++ r.path ++ ";".toList
          ++ E.printHashType r.narHash.type ++ ":".toList ++ E.printHash32 r.narHash
          ++ ";".toList ++ (Nat.repr r.narSize).toList ++ ";".toList
          ++ ",".toList.intercalate r.references.toList
      ∧ (r.path = "/nix/store/abc-foo".toList → r.narSize = 200 →
          r.references.toList = ["/nix/store/abc-foo".toList, "/nix/store/def-bar".toList] →
          r.narHash.type = HashType.htSHA256 →
          E.printHashType HashType.htSHA256 = "sha256".toList →
          r.fingerprint E
            = "1;/nix/store/abc-foo;sha256:".toList ++ E.printHash32 r.narHash
              ++ ";200;/nix/store/abc-foo,/nix/store/def-bar".toList) := by
  refine ⟨fingerprint_eq E r, ?_⟩
  intro hp hs hr ht hE
  rw [fingerprint_eq, hp, hs, hr, ht, hE]
  simp [List.intercalate, Nat.repr, Nat.toDigits, Nat.toDigitsCore, Nat.digitChar,
    List.asString]

/-- The fingerprint of `exampleRecord` in the sample environment. -/
theorem fingerprint_format_witness :
    exampleRecord.fingerprint sampleEnv
      = "1;/nix/store/abc-foo;sha256:0c2d;200;/nix/store/abc-foo,/nix/store/def-bar".toList :=
  (fingerprint_format sampleEnv exampleRecord).2 rfl rfl rfl rfl rfl

/-- C3: two records that agree on path, nar hash, nar size and references
have the same fingerprint, whatever their other fields are. -/
theorem fingerprint_independent (E : Env) (r₁ r₂ : NarInfo)
    (hpath : r₁.path = r₂.path) (hhash : r₁.narHash = r₂.narHash)
    (hsize : r₁.narSize = r₂.narSize) (hrefs : r₁.references = r₂.references) :
    r₁.fingerprint E = r₂.fingerprint E := by
  simp only [NarInfo.fingerprint, hpath, hhash, hsize, hrefs]

/-- The two sample records differ in url, compression, file hash, file size,
deriver, system and signatures, and have the same fingerprint. -/
theorem fingerprint_independent_witness :
    exampleRecord.url ≠ exampleRecordOther.url
      ∧ exampleRecord.compression ≠ exampleRecordOther.compression
      ∧ exampleRecord.fileHash ≠ exampleRecordOther.fileHash
      ∧ exampleRecord.fileSize ≠ exampleRecordOther.fileSize
      ∧ exampleRecord.deriver ≠ exampleRecordOther.deriver
      ∧ exampleRecord.system ≠ exampleRecordOther.system
      ∧ exampleRecord.sigs ≠ exampleRecordOther.sigs
      ∧ exampleRecord.fingerprint sampleEnv = exampleRecordOther.fingerprint sampleEnv :=
  ⟨by decide, by decide, by decide, by decide, by decide, by decide, by decide,
    fingerprint_independent sampleEnv exampleRecord exampleRecordOther rfl rfl rfl rfl⟩

/-- C7: for a record with a non-empty compression and sha256 file and nar
hashes, `to_string` returns the lines `StorePath`, `URL`, `Compression`,
`FileHash`, `FileSize`, `NarHash`, `NarSize`, `References` (the base names
joined by single spaces; always there, also for an empty set), then `Deriver`
exactly when the deriver is non-empty, `System` exactly when the system is
non-empty, and one `Sig` line per signature, every line ended by a newline. -/
theorem to_string_canonical (E : Env) (r : NarInfo) (hc : r.compression ≠ [])
    (hf : r.fileHash.type = HashType.htSHA256) (hn : r.narHash.type = HashType.htSHA256) :
    r.to_string E = some (
      "StorePath: ".toList ++ r.path ++ "\n".toList
      ++ ("URL: ".toList ++ r.url ++ "\n".toList)
      ++ ("Compression: ".toList ++ r.compression ++ "\n".toList)
      ++ ("FileHash: sha256:".toList ++ E.printHash32 r.fileHash ++ "\n".toList)
      ++ ("FileSize: ".toList ++ (Nat.repr r.fileSize).toList ++ "\n".toList)
      ++ ("NarHash: sha256:".toList ++ E.printHash32 r.narHash ++ "\n".toList)
      ++ ("NarSize: ".toList ++ (Nat.repr r.narSize).toList ++ "\n".toList)
      ++ ("References: ".toList
          ++ " ".toList.intercalate (r.references.toList.map E.baseNameOf) ++ "\n".toList)
      ++ (if r.deriver = [] then []
          else "Deriver: ".toList ++ E.baseNameOf r.deriver ++ "\n".toList)
      ++ (if r.system = [] then [] else "System: ".toList ++ r.system ++ "\n".toList)
      ++ (r.sigs.toList.map (fun sig => "Sig: ".toList ++ sig ++ "\n".toList)).flatten) :=
  to_string_eq_canonicalText E r hc hf hn

/-- The serialization of the second sample record, which has a deriver, a
system and one signature. -/
theorem to_string_canonical_witness :
    exampleRecordOther.to_string sampleEnv = some (
      "StorePath: /nix/store/abc-foo\nURL: nar/other.nar.xz\nCompression: xz\n".toList
      ++ "FileHash: sha256:010203\nFileSize: 7\nNarHash: sha256:0c2d\nNarSize: 200\n".toList
      ++ "References: abc-foo def-bar\nDeriver: ghi-baz.drv\n".toList
      ++ "System: x86_64-linux\nSig: key:sig\n".toList) :=
  to_string_canonical sampleEnv exampleRecordOther (by decide) rfl rfl

/-! ## The scan loop on the remaining text -/

theorem findIn_eq_none {c : Char} : ∀ {t : Str}, findIn c t = none ↔ c ∉ t
  | [] => by simp [findIn]
  | x :: xs => by
    have ih := @findIn_eq_none c xs
    by_cases h : x = c
    · simp [findIn, h]
    · have h' : ¬ c = x := fun e => h e.symm
      simp [findIn, h, h', ih]

theorem findIn_append_cons {c : Char} : ∀ (a b : Str), c ∉ a →
    findIn c (a ++ c :: b) = some a.length
  | [], b, _ => by simp [findIn]
  | x :: xs, b, h => by
    have hx : ¬ x = c := fun e => h (by simp [e])
    have hxs : c ∉ xs := fun e => h (List.mem_cons_of_mem _ e)
    simp [findIn, hx, findIn_append_cons xs b hxs]

theorem findIn_some {c : Char} : ∀ {t : Str} {i : Nat}, findIn c t = some i →
    ∃ a b, t = a ++ c :: b ∧ c ∉ a ∧ a.length = i
  | [], i, h => by simp [findIn] at h
  | x :: xs, i, h => by
    by_cases hx : x = c
    · simp only [findIn, hx, if_true, Option.some.injEq] at h
      exact ⟨[], xs, by simp [hx], by simp, by simpa using h⟩
    · simp only [findIn, hx, if_false, Option.map_eq_some'] at h
      obtain ⟨k, hk, rfl⟩ := h
      obtain ⟨a, b, rfl, ha, rfl⟩ := findIn_some hk
      refine ⟨x :: a, b, by simp, ?_, by simp⟩
      intro hm
      rcases List.mem_cons.1 hm with e | e
      · exact hx e.symm
      · exact ha e

theorem parseLoop_eq_parseTail (E : Env) (s : Str) : ∀ (fuel pos : Nat) (r : NarInfo),
    parseLoop E s fuel pos r = parseTail E fuel (s.drop pos) r
  | 0, pos, r => by
    by_cases h : pos < s.length
    · have : s.drop pos ≠ [] := by simp [List.drop_eq_nil_iff]; omega
      simp [parseLoop, parseTail, h, this]
    · have : s.drop pos = [] := by simp [List.drop_eq_nil_iff]; omega
      simp [parseLoop, parseTail, h, this]
  | fuel + 1, pos, r => by
    by_cases h : pos < s.length
    · have hne : s.drop pos ≠ [] := by simp [List.drop_eq_nil_iff]; omega
      simp only [parseLoop, parseTail, h, hne, if_true, if_false, find]
      cases hi : findIn ':' (s.drop pos) with
      | none => simp
      | some i =>
        have hd : s.drop (i + pos + 2) = (s.drop pos).drop (i + 2) := by
          rw [List.drop_drop]; congr 1; omega
        simp only [Option.map_some', hd]
        cases hj : findIn '\n' ((s.drop pos).drop (i + 2)) with
        | none => simp
        | some j =>
          have hn : substr s pos (i + pos - pos) = (s.drop pos).take i := by
            simp [substr]
          have hv : substr s (i + pos + 2) (j + (i + pos + 2) - (i + pos) - 2)
              = ((s.drop pos).drop (i + 2)).take j := by
            simp only [substr, hd]; congr 1; omega
          have hnext : s.drop (j + (i + pos + 2) + 1) = (s.drop pos).drop (i + 2 + j + 1) := by
            rw [List.drop_drop]; congr 1; omega
          simp only [Option.map_some', hn, hv]
          cases hp : processField E ((s.drop pos).take i) (((s.drop pos).drop (i + 2)).take j) r with
          | error e => simp
          | ok r' => simp only [parseLoop_eq_parseTail E s fuel, hnext]
    · have : s.drop pos = [] := by simp [List.drop_eq_nil_iff]; omega
      simp [parseLoop, parseTail, h, this]

theorem parseTail_fuel (E : Env) : ∀ (fuel fuel' : Nat) (t : Str) (r : NarInfo),
    t.length ≤ fuel → t.length ≤ fuel' → parseTail E fuel t r = parseTail E fuel' t r
  | 0, fuel', t, r, h, _ => by
    have ht : t = [] := List.length_eq_zero.1 (Nat.le_zero.1 h)
    cases fuel' <;> simp [parseTail, ht]
  | fuel + 1, 0, t, r, _, h => by
    have ht : t = [] := List.length_eq_zero.1 (Nat.le_zero.1 h)
    simp [parseTail, ht]
  | fuel + 1, fuel' + 1, t, r, h, h' => by
    by_cases ht : t = []
    · simp [parseTail, ht]
    · simp only [parseTail, ht, if_false]
      cases findIn ':' t with
      | none => rfl
      | some i =>
        dsimp only
        cases findIn '\n' (t.drop (i + 2)) with
        | none => rfl
        | some j =>
          dsimp only
          cases processField E (t.take i) ((t.drop (i + 2)).take j) r with
          | error e => rfl
          | ok r' =>
            have hpos : 0 < t.length := List.length_pos.2 ht
            have hl : (t.drop (i + 2 + j + 1)).length ≤ t.length - 1 := by
              rw [List.length_drop]; omega
            exact parseTail_fuel E fuel fuel' (t.drop (i + 2 + j + 1)) r'
              (by omega) (by omega)

theorem parse_eq_scan (E : Env) (s whence : Str) :
    NarInfo.parse E s whence
      = match scan E s NarInfo.init with
        | Except.error e => Except.error e
        | Except.ok r => finish r := by
  unfold NarInfo.parse scan
  rw [parseLoop_eq_parseTail, List.drop_zero]

theorem scan_nil (E : Env) (r : NarInfo) : scan E [] r = Except.ok r := by
  simp [scan, parseTail]

theorem scan_no_colon (E : Env) (t : Str) (r : NarInfo) (ht : t ≠ []) (h : ':' ∉ t) :
    scan E t r = corrupt := by
  obtain ⟨n, hn⟩ : ∃ n, t.length = n + 1 :=
    ⟨t.length - 1, by have := List.length_pos.2 ht; omega⟩
  simp [scan, hn, parseTail, ht, findIn_eq_none.2 h]

theorem drop_line_start (name tail : Str) :
    (name ++ ':' :: tail).drop (name.length + 2) = tail.drop 1 := by
  rw [← List.drop_drop, List.drop_left]
  rfl

theorem scan_no_newline (E : Env) (name tail : Str) (r : NarInfo) (hn : ':' ∉ name)
    (h : '\n' ∉ tail.drop 1) : scan E (name ++ ':' :: tail) r = corrupt := by
  have hlen : (name ++ ':' :: tail).length = (name.length + tail.length) + 1 := by
    simp only [List.length_append, List.length_cons]; omega
  unfold scan
  rw [hlen]
  simp only [parseTail, List.append_eq_nil, false_and, and_false, if_false, reduceCtorEq,
    findIn_append_cons name tail hn, drop_line_start, findIn_eq_none.2 h]

theorem scan_line (E : Env) (name value rest : Str) (c : Char) (r : NarInfo)
    (hn : ':' ∉ name) (hv : '\n' ∉ value) :
    scan E (name ++ ':' :: c :: (value ++ '\n' :: rest)) r
      = match processField E name value r with
        | Except.error e => Except.error e
        | Except.ok r' => scan E rest r' := by
  have hd : (name ++ ':' :: c :: (value ++ '\n' :: rest)).drop (name.length + 2)
      = value ++ '\n' :: rest := by
    rw [drop_line_start]; rfl
  have hd' : (name ++ ':' :: c :: (value ++ '\n' :: rest)).drop
      (name.length + 2 + value.length + 1) = rest := by
    rw [show name.length + 2 + value.length + 1 = (name.length + 2) + (value.length + 1) by omega,
      ← List.drop_drop, hd, ← List.drop_drop, List.drop_left]
    rfl
  have ht : (name ++ ':' :: c :: (value ++ '\n' :: rest)).take name.length = name :=
    List.take_left _ _
  have hvv : (value ++ '\n' :: rest).take value.length = value := List.take_left _ _
  have hlen : (name ++ ':' :: c :: (value ++ '\n' :: rest)).length
      = (name.length + value.length + rest.length + 2) + 1 := by
    simp only [List.length_append, List.length_cons]; omega
  unfold scan
  rw [hlen]
  simp only [parseTail, List.append_eq_nil, false_and, and_false, if_false, reduceCtorEq,
    findIn_append_cons name _ hn, hd, findIn_append_cons value rest hv, ht, hvv, hd']
  cases processField E name value r with
  | error e => rfl
  | ok r' =>
    exact parseTail_fuel E (name.length + value.length + rest.length + 2) rest.length rest r'
      (by omega) (Nat.le_refl _)

theorem processedFields_eq_fieldsTail (E : Env) (s : Str) : ∀ (fuel pos : Nat) (r : NarInfo),
    processedFields E s fuel pos r = fieldsTail E fuel (s.drop pos) r
  | 0, pos, r => by simp [processedFields, fieldsTail]
  | fuel + 1, pos, r => by
    by_cases h : pos < s.length
    · have hne : s.drop pos ≠ [] := by simp [List.drop_eq_nil_iff]; omega
      simp only [processedFields, fieldsTail, h, hne, if_true, if_false, find]
      cases hi : findIn ':' (s.drop pos) with
      | none => simp
      | some i =>
        have hd : s.drop (i + pos + 2) = (s.drop pos).drop (i + 2) := by
          rw [List.drop_drop]; congr 1; omega
        simp only [Option.map_some', hd]
        cases hj : findIn '\n' ((s.drop pos).drop (i + 2)) with
        | none => simp
        | some j =>
          have hn : substr s pos (i + pos - pos) = (s.drop pos).take i := by
            simp [substr]
          have hv : substr s (i + pos + 2) (j + (i + pos + 2) - (i + pos) - 2)
              = ((s.drop pos).drop (i + 2)).take j := by
            simp only [substr, hd]; congr 1; omega
          have hnext : s.drop (j + (i + pos + 2) + 1) = (s.drop pos).drop (i + 2 + j + 1) := by
            rw [List.drop_drop]; congr 1; omega
          simp only [Option.map_some', hn, hv]
          cases hp : processField E ((s.drop pos).take i) (((s.drop pos).drop (i + 2)).take j) r with
          | error e => simp
          | ok r' => simp only [processedFields_eq_fieldsTail E s fuel, hnext]
    · have : s.drop pos = [] := by simp [List.drop_eq_nil_iff]; omega
      simp [processedFields, fieldsTail, h, this]

theorem fieldsTail_fuel (E : Env) : ∀ (fuel fuel' : Nat) (t : Str) (r : NarInfo),
    t.length ≤ fuel → t.length ≤ fuel' → fieldsTail E fuel t r = fieldsTail E fuel' t r
  | 0, fuel', t, r, h, _ => by
    have ht : t = [] := List.length_eq_zero.1 (Nat.le_zero.1 h)
    cases fuel' <;> simp [fieldsTail, ht]
  | fuel + 1, 0, t, r, _, h => by
    have ht : t = [] := List.length_eq_zero.1 (Nat.le_zero.1 h)
    simp [fieldsTail, ht]
  | fuel + 1, fuel' + 1, t, r, h, h' => by
    by_cases ht : t = []
    · simp [fieldsTail, ht]
    · simp only [fieldsTail, ht, if_false]
      cases findIn ':' t with
      | none => rfl
      | some i =>
        dsimp only
        cases findIn '\n' (t.drop (i + 2)) with
        | none => rfl
        | some j =>
          dsimp only
          cases processField E (t.take i) ((t.drop (i + 2)).take j) r with
          | error e => rfl
          | ok r' =>
            have hpos : 0 < t.length := List.length_pos.2 ht
            have hl : (t.drop (i + 2 + j + 1)).length ≤ t.length - 1 := by
              rw [List.length_drop]; omega
            dsimp only
            rw [fieldsTail_fuel E fuel fuel' (t.drop (i + 2 + j + 1)) r'
              (by omega) (by omega)]

theorem processed_eq_fieldsOf (E : Env) (s : Str) :
    NarInfo.processed E s = fieldsOf E s NarInfo.init := by
  simp only [NarInfo.processed, processedFields_eq_fieldsTail, List.drop_zero, fieldsOf]

theorem fieldsOf_nil (E : Env) (r : NarInfo) : fieldsOf E [] r = [] := by
  simp [fieldsOf, fieldsTail]

theorem fieldsOf_no_colon (E : Env) (t : Str) (r : NarInfo) (h : ':' ∉ t) :
    fieldsOf E t r = [] := by
  unfold fieldsOf
  cases t.length with
  | zero => rfl
  | succ n => simp [fieldsTail, findIn_eq_none.2 h]

theorem fieldsOf_no_newline (E : Env) (name tail : Str) (r : NarInfo) (hn : ':' ∉ name)
    (h : '\n' ∉ tail.drop 1) : fieldsOf E (name ++ ':' :: tail) r = [] := by
  have hlen : (name ++ ':' :: tail).length = (name.length + tail.length) + 1 := by
    simp only [List.length_append, List.length_cons]; omega
  unfold fieldsOf
  rw [hlen]
  simp only [fieldsTail, List.append_eq_nil, false_and, and_false, if_false, reduceCtorEq,
    findIn_append_cons name tail hn, drop_line_start, findIn_eq_none.2 h]

theorem fieldsOf_line (E : Env) (name value rest : Str) (c : Char) (r : NarInfo)
    (hn : ':' ∉ name) (hv : '\n' ∉ value) :
    fieldsOf E (name ++ ':' :: c :: (value ++ '\n' :: rest)) r
      = (name, value) ::
        match processField E name value r with
        | Except.error _ => []
        | Except.ok r' => fieldsOf E rest r' := by
  have hd : (name ++ ':' :: c :: (value ++ '\n' :: rest)).drop (name.length + 2)
      = value ++ '\n' :: rest := by
    rw [drop_line_start]; rfl
  have hd' : (name ++ ':' :: c :: (value ++ '\n' :: rest)).drop
      (name.length + 2 + value.length + 1) = rest := by
    rw [show name.length + 2 + value.length + 1 = (name.length + 2) + (value.length + 1) by omega,
      ← List.drop_drop, hd, ← List.drop_drop, List.drop_left]
    rfl
  have ht : (name ++ ':' :: c :: (value ++ '\n' :: rest)).take name.length = name :=
    List.take_left _ _
  have hvv : (value ++ '\n' :: rest).take value.length = value := List.take_left _ _
  obtain ⟨n, hlen, hle⟩ : ∃ n, (name ++ ':' :: c :: (value ++ '\n' :: rest)).length = n + 1
      ∧ rest.length ≤ n :=
    ⟨name.length + value.length + rest.length + 2,
      by simp only [List.length_append, List.length_cons]; omega, by omega⟩
  unfold fieldsOf
  rw [hlen]
  simp only [fieldsTail, List.append_eq_nil, false_and, and_false, if_false, reduceCtorEq,
    findIn_append_cons name _ hn, hd, findIn_append_cons value rest hv, ht, hvv, hd']
  cases processField E name value r with
  | error e => rfl
  | ok r' =>
    dsimp only
    rw [fieldsTail_fuel E n rest.length rest r' hle (Nat.le_refl _)]

/-- The behaviour of the scan loop, by cases on the text that remains: `P t r
res fields` holds of every text `t` and record `r` for the loop's result `res`
and the fields `fields` it processes, as soon as it holds at the end of the
text, at a text without a colon, at a line without a newline after the
separator, at a line whose field fails, and is preserved by a line whose field
is accepted. -/
theorem scan_induction (E : Env)
    (P : Str → NarInfo → Except Error NarInfo → List (Str × Str) → Prop)
    (hnil : ∀ r, P [] r (Except.ok r) [])
    (hcolon : ∀ t r, t ≠ [] → ':' ∉ t → P t r corrupt [])
    (hnewline : ∀ name tail r, ':' ∉ name → '\n' ∉ tail.drop 1 →
      P (name ++ ':' :: tail) r corrupt [])
    (hfail : ∀ name c value rest r e, ':' ∉ name → '\n' ∉ value →
      processField E name value r = Except.error e →
      P (name ++ ':' :: c :: (value ++ '\n' :: rest)) r (Except.error e) [(name, value)])
    (hstep : ∀ name c value rest r r' res fields, ':' ∉ name → '\n' ∉ value →
      processField E name value r = Except.ok r' → P rest r' res fields →
      P (name ++ ':' :: c :: (value ++ '\n' :: rest)) r res ((name, value) :: fields)) :
    ∀ (t : Str) (r : NarInfo), P t r (scan E t r) (fieldsOf E t r) := by
  intro t
  induction' hlen : t.length using Nat.strong_induction_on with n ih generalizing t
  intro r
  by_cases ht : t = []
  · subst ht; rw [scan_nil, fieldsOf_nil]; exact hnil r
  by_cases hc : ':' ∈ t
  · obtain ⟨i, hi⟩ : ∃ i, findIn ':' t = some i := by
      cases h : findIn ':' t with
      | none => exact absurd hc (findIn_eq_none.1 h)
      | some i => exact ⟨i, rfl⟩
    obtain ⟨name, tail, rfl, hname, -⟩ := findIn_some hi
    by_cases hnl : '\n' ∈ tail.drop 1
    · obtain ⟨j, hj⟩ : ∃ j, findIn '\n' (tail.drop 1) = some j := by
        cases h : findIn '\n' (tail.drop 1) with
        | none => exact absurd hnl (findIn_eq_none.1 h)
        | some j => exact ⟨j, rfl⟩
      obtain ⟨value, rest, hsplit, hvalue, -⟩ := findIn_some hj
      cases tail with
      | nil => simp at hnl
      | cons c tail' =>
        simp only [List.drop_succ_cons, List.drop_zero] at hsplit
        subst hsplit
        rw [scan_line E name value rest c r hname hvalue,
          fieldsOf_line E name value rest c r hname hvalue]
        cases hp : processField E name value r with
        | error e => exact hfail name c value rest r e hname hvalue hp
        | ok r' =>
          refine hstep name c value rest r r' _ _ hname hvalue hp ?_
          refine ih rest.length ?_ rest rfl r'
          rw [← hlen]
          simp only [List.length_append, List.length_cons]
          omega
    · rw [scan_no_newline E name tail r hname hnl, fieldsOf_no_newline E name tail r hname hnl]
      exact hnewline name tail r hname hnl
  · rw [scan_no_colon E t r ht hc, fieldsOf_no_colon E t r hc]
    exact hcolon t r ht hc

/-! ## The field dispatch -/

theorem parseHashField_error {E : Env} {s : Str} {e : Error}
    (h : parseHashField E s = Except.error e) : e = Error.CorruptInfo := by
  unfold parseHashField at h
  split at h
  · simpa [corrupt] using h.symm
  · dsimp only at h
    split_ifs at h
    · simpa [corrupt] using h.symm
    · split at h
      · simpa [corrupt] using h.symm
      · simp at h

theorem insertRefs_error {E : Env} : ∀ {refs : List Str} {s : StringSet} {e : Error},
    insertRefs E refs s = Except.error e → e = Error.CorruptInfo
  | [], s, e, h => by simp [insertRefs] at h
  | x :: xs, s, e, h => by
    simp only [insertRefs] at h
    split_ifs at h
    · simpa [corrupt] using h.symm
    · exact insertRefs_error h

/-- What an accepted field does to the record, name by name. -/
theorem processField_ok {E : Env} {name value : Str} {r r' : NarInfo}
    (h : processField E name value r = Except.ok r') :
    (name = "StorePath".toList ∧ E.isStorePath value = true ∧ r' = { r with path := value })
    ∨ (name = "URL".toList ∧ r' = { r with url := value })
    ∨ (name = "Compression".toList ∧ r' = { r with compression := value })
    ∨ (name = "FileHash".toList ∧
        ∃ hash, parseHashField E value = Except.ok hash ∧ r' = { r with fileHash := hash })
    ∨ (name = "FileSize".toList ∧
        ∃ n, E.string2Int value = some n ∧ r' = { r with fileSize := n })
    ∨ (name = "NarHash".toList ∧
        ∃ hash, parseHashField E value = Except.ok hash ∧ r' = { r with narHash := hash })
    ∨ (name = "NarSize".toList ∧
        ∃ n, E.string2Int value = some n ∧ r' = { r with narSize := n })
    ∨ (name = "References".toList ∧ r.references.toList = [] ∧
        ∃ s, insertRefs E (tokenizeString value " ".toList) r.references = Except.ok s
          ∧ r' = { r with references := s })
    ∨ (name = "Deriver".toList ∧ E.isStorePath (E.nixStore ++ "/".toList ++ value) = true
        ∧ r' = { r with deriver := E.nixStore ++ "/".toList ++ value })
    ∨ (name = "System".toList ∧ r' = { r with system := value })
    ∨ (name = "Sig".toList ∧ r' = { r with sigs := r.sigs.insert value })
    ∨ (name ∉ ["StorePath".toList, "URL".toList, "Compression".toList, "FileHash".toList,
          "FileSize".toList, "NarHash".toList, "NarSize".toList, "References".toList,
          "Deriver".toList, "System".toList, "Sig".toList] ∧ r' = r) := by
  unfold processField at h
  generalize "StorePath".toList = k1 at h ⊢
  generalize "URL".toList = k2 at h ⊢
  generalize "Compression".toList = k3 at h ⊢
  generalize "FileHash".toList = k4 at h ⊢
  generalize "FileSize".toList = k5 at h ⊢
  generalize "NarHash".toList = k6 at h ⊢
  generalize "NarSize".toList = k7 at h ⊢
  generalize "References".toList = k8 at h ⊢
  generalize "Deriver".toList = k9 at h ⊢
  generalize "System".toList = k10 at h ⊢
  generalize "Sig".toList = k11 at h ⊢
  generalize " ".toList = sp at h ⊢
  generalize "/".toList = sl at h ⊢
  by_cases h1 : name = k1
  · rw [if_pos h1] at h
    by_cases hv : E.isStorePath value = true
    · rw [if_neg (by rw [hv]; decide)] at h
      exact Or.inl ⟨h1, hv, (Except.ok.inj h).symm⟩
    · rw [if_pos (by simpa using hv)] at h
      exact absurd h (by simp [corrupt])
  rw [if_neg h1] at h
  by_cases h2 : name = k2
  · rw [if_pos h2] at h
    exact Or.inr (Or.inl ⟨h2, (Except.ok.inj h).symm⟩)
  rw [if_neg h2] at h
  by_cases h3 : name = k3
  · rw [if_pos h3] at h
    exact Or.inr (Or.inr (Or.inl ⟨h3, (Except.ok.inj h).symm⟩))
  rw [if_neg h3] at h
  by_cases h4 : name = k4
  · rw [if_pos h4] at h
    cases hh : parseHashField E value with
    | error e => rw [hh] at h; exact absurd h (by simp)
    | ok hash =>
      rw [hh] at h
      exact Or.inr (Or.inr (Or.inr (Or.inl ⟨h4, hash, rfl, (Except.ok.inj h).symm⟩)))
  rw [if_neg h4] at h
  by_cases h5 : name = k5
  · rw [if_pos h5] at h
    cases hn : E.string2Int value with
    | none => rw [hn] at h; exact absurd h (by simp [corrupt])
    | some n =>
      rw [hn] at h
      exact Or.inr (Or.inr (Or.inr (Or.inr (Or.inl ⟨h5, n, rfl, (Except.ok.inj h).symm⟩))))
  rw [if_neg h5] at h
  by_cases h6 : name = k6
  · rw [if_pos h6] at h
    cases hh : parseHashField E value with
    | error e => rw [hh] at h; exact absurd h (by simp)
    | ok hash =>
      rw [hh] at h
      exact Or.inr (Or.inr (Or.inr (Or.inr (Or.inr (Or.inl
        ⟨h6, hash, rfl, (Except.ok.inj h).symm⟩)))))
  rw [if_neg h6] at h
  by_cases h7 : name = k7
  · rw [if_pos h7] at h
    cases hn : E.string2Int value with
    | none => rw [hn] at h; exact absurd h (by simp [corrupt])
    | some n =>
      rw [hn] at h
      exact Or.inr (Or.inr (Or.inr (Or.inr (Or.inr (Or.inr (Or.inl
        ⟨h7, n, rfl, (Except.ok.inj h).symm⟩))))))
  rw [if_neg h7] at h
  by_cases h8 : name = k8
  · rw [if_pos h8] at h
    dsimp only at h
    by_cases he : r.references.toList = []
    · rw [if_neg (by simp [he])] at h
      cases hs : insertRefs E (tokenizeString value sp) r.references with
      | error e => rw [hs] at h; exact absurd h (by simp)
      | ok s =>
        rw [hs] at h
        exact Or.inr (Or.inr (Or.inr (Or.inr (Or.inr (Or.inr (Or.inr (Or.inl
          ⟨h8, he, s, rfl, (Except.ok.inj h).symm⟩)))))))
    · rw [if_pos he] at h
      exact absurd h (by simp [corrupt])
  rw [if_neg h8] at h
  by_cases h9 : name = k9
  · rw [if_pos h9] at h
    dsimp only at h
    by_cases hv : E.isStorePath (E.nixStore ++ sl ++ value) = true
    · rw [if_neg (by rw [hv]; decide)] at h
      exact Or.inr (Or.inr (Or.inr (Or.inr (Or.inr (Or.inr (Or.inr (Or.inr (Or.inl
        ⟨h9, hv, (Except.ok.inj h).symm⟩))))))))
    · rw [if_pos (by rw [Bool.not_eq_true] at hv; rw [hv]; rfl)] at h
      exact absurd h (by simp [corrupt])
  rw [if_neg h9] at h
  by_cases h10 : name = k10
  · rw [if_pos h10] at h
    exact Or.inr (Or.inr (Or.inr (Or.inr (Or.inr (Or.inr (Or.inr (Or.inr (Or.inr (Or.inl
      ⟨h10, (Except.ok.inj h).symm⟩)))))))))
  rw [if_neg h10] at h
  by_cases h11 : name = k11
  · rw [if_pos h11] at h
    exact Or.inr (Or.inr (Or.inr (Or.inr (Or.inr (Or.inr (Or.inr (Or.inr (Or.inr (Or.inr
      (Or.inl ⟨h11, (Except.ok.inj h).symm⟩))))))))))
  rw [if_neg h11] at h
  refine Or.inr (Or.inr (Or.inr (Or.inr (Or.inr (Or.inr (Or.inr (Or.inr (Or.inr (Or.inr
    (Or.inr ⟨?_, (Except.ok.inj h).symm⟩))))))))))
  simp only [List.mem_cons, List.mem_nil_iff, or_false, not_or]
  exact ⟨h1, h2, h3, h4, h5, h6, h7, h8, h9, h10, h11⟩

theorem processField_error {E : Env} {name value : Str} {r : NarInfo} {e : Error}
    (h : processField E name value r = Except.error e) : e = Error.CorruptInfo := by
  unfold processField at h
  generalize "StorePath".toList = k1 at h
  generalize "URL".toList = k2 at h
  generalize "Compression".toList = k3 at h
  generalize "FileHash".toList = k4 at h
  generalize "FileSize".toList = k5 at h
  generalize "NarHash".toList = k6 at h
  generalize "NarSize".toList = k7 at h
  generalize "References".toList = k8 at h
  generalize "Deriver".toList = k9 at h
  generalize "System".toList = k10 at h
  generalize "Sig".toList = k11 at h
  generalize " ".toList = sp at h
  generalize "/".toList = sl at h
  have hc : ∀ {x : Except Error NarInfo}, x = corrupt → x = Except.error e →
      e = Error.CorruptInfo := by
    intro x hx hx'
    rw [hx] at hx'
    exact (Except.error.inj hx').symm
  have hok : ∀ {x : NarInfo}, Except.ok x = (Except.error e : Except Error NarInfo) →
      e = Error.CorruptInfo := by
    intro x hx
    exact absurd hx (by simp)
  by_cases h1 : name = k1
  · rw [if_pos h1] at h
    by_cases hv : (!E.isStorePath value) = true
    · rw [if_pos hv] at h; exact hc rfl h
    · rw [if_neg hv] at h; exact hok h
  rw [if_neg h1] at h
  by_cases h2 : name = k2
  · rw [if_pos h2] at h; exact hok h
  rw [if_neg h2] at h
  by_cases h3 : name = k3
  · rw [if_pos h3] at h; exact hok h
  rw [if_neg h3] at h
  by_cases h4 : name = k4
  · rw [if_pos h4] at h
    cases hh : parseHashField E value with
    | error e' => rw [hh] at h; cases h; exact parseHashField_error hh
    | ok hash => rw [hh] at h; exact hok h
  rw [if_neg h4] at h
  by_cases h5 : name = k5
  · rw [if_pos h5] at h
    cases hn : E.string2Int value with
    | none => rw [hn] at h; exact hc rfl h
    | some n => rw [hn] at h; exact hok h
  rw [if_neg h5] at h
  by_cases h6 : name = k6
  · rw [if_pos h6] at h
    cases hh : parseHashField E value with
    | error e' => rw [hh] at h; cases h; exact parseHashField_error hh
    | ok hash => rw [hh] at h; exact hok h
  rw [if_neg h6] at h
  by_cases h7 : name = k7
  · rw [if_pos h7] at h
    cases hn : E.string2Int value with
    | none => rw [hn] at h; exact hc rfl h
    | some n => rw [hn] at h; exact hok h
  rw [if_neg h7] at h
  by_cases h8 : name = k8
  · rw [if_pos h8] at h
    dsimp only at h
    by_cases he : r.references.toList ≠ []
    · rw [if_pos he] at h; exact hc rfl h
    · rw [if_neg he] at h
      cases hs : insertRefs E (tokenizeString value sp) r.references with
      | error e' => rw [hs] at h; cases h; exact insertRefs_error hs
      | ok s => rw [hs] at h; exact hok h
  rw [if_neg h8] at h
  by_cases h9 : name = k9
  · rw [if_pos h9] at h
    dsimp only at h
    by_cases hv : (!E.isStorePath (E.nixStore ++ sl ++ value)) = true
    · rw [if_pos hv] at h; exact hc rfl h
    · rw [if_neg hv] at h; exact hok h
  rw [if_neg h9] at h
  by_cases h10 : name = k10
  · rw [if_pos h10] at h; exact hok h
  rw [if_neg h10] at h
  by_cases h11 : name = k11
  · rw [if_pos h11] at h; exact hok h
  rw [if_neg h11] at h
  exact hok h

theorem processField_path {E : Env} {name value : Str} {r r' : NarInfo}
    (h : processField E name value r = Except.ok r') (hn : name ≠ "StorePath".toList) :
    r'.path = r.path := by
  rcases processField_ok h with h | h | h | h | h | h | h | h | h | h | h | h
  · exact absurd h.1 hn
  all_goals first
    | (obtain ⟨-, rfl⟩ := h; rfl)
    | (obtain ⟨-, -, -, rfl⟩ := h; rfl)
    | (obtain ⟨-, -, -, -, rfl⟩ := h; rfl)

theorem processField_url {E : Env} {name value : Str} {r r' : NarInfo}
    (h : processField E name value r = Except.ok r') (hn : name ≠ "URL".toList) :
    r'.url = r.url := by
  rcases processField_ok h with h | h | h | h | h | h | h | h | h | h | h | h
  · obtain ⟨-, -, rfl⟩ := h; rfl
  · exact absurd h.1 hn
  all_goals first
    | (obtain ⟨-, rfl⟩ := h; rfl)
    | (obtain ⟨-, -, -, rfl⟩ := h; rfl)
    | (obtain ⟨-, -, -, -, rfl⟩ := h; rfl)

theorem scan_error {E : Env} : ∀ (t : Str) (r : NarInfo) (e : Error),
    scan E t r = Except.error e → e = Error.CorruptInfo := by
  intro t r
  refine scan_induction E (fun _ _ res _ => ∀ e, res = Except.error e → e = Error.CorruptInfo)
    ?_ ?_ ?_ ?_ ?_ t r
  · intro r e h; exact absurd h (by simp)
  · intro t r _ _ e h; exact (Except.error.inj h).symm
  · intro name tail r _ _ e h; exact (Except.error.inj h).symm
  · intro name c value rest r e _ _ hp e' h
    cases h; exact processField_error hp
  · intro name c value rest r r' res fields _ _ _ ih; exact ih

theorem finish_error {r : NarInfo} {e : Error} (h : finish r = Except.error e) :
    e = Error.CorruptInfo := by
  unfold finish at h
  dsimp only at h
  split_ifs at h <;> exact (Except.error.inj h).symm

theorem finish_ok {r r' : NarInfo} (h : finish r = Except.ok r') :
    r.path ≠ [] ∧ r.url ≠ []
      ∧ r' = { r with compression := if r.compression = [] then "bzip2".toList
                                     else r.compression } := by
  unfold finish at h
  dsimp only at h
  by_cases hc : r.compression = []
  · simp only [hc, if_true] at h ⊢
    split_ifs at h with hp
    · exact absurd h (by simp [corrupt])
    · rw [not_or] at hp
      exact ⟨hp.1, hp.2, (Except.ok.inj h).symm⟩
  · simp only [hc, if_false] at h ⊢
    split_ifs at h with hp
    · exact absurd h (by simp [corrupt])
    · rw [not_or] at hp
      exact ⟨hp.1, hp.2, (Except.ok.inj h).symm⟩

theorem finish_corrupt {r : NarInfo} (h : r.path = [] ∨ r.url = []) : finish r = corrupt := by
  unfold finish
  dsimp only
  by_cases hc : r.compression = []
  · simp only [hc, if_true]; rw [if_pos h]
  · simp only [hc, if_false]; rw [if_pos h]

theorem parse_error {E : Env} {s whence : Str} {e : Error}
    (h : NarInfo.parse E s whence = Except.error e) : e = Error.CorruptInfo := by
  rw [parse_eq_scan] at h
  cases hs : scan E s NarInfo.init with
  | error e' => rw [hs] at h; cases h; exact scan_error _ _ _ hs
  | ok r => rw [hs] at h; exact finish_error h

theorem parse_not_ok {E : Env} {s whence : Str}
    (h : ∀ r, NarInfo.parse E s whence ≠ Except.ok r) :
    NarInfo.parse E s whence = Except.error Error.CorruptInfo := by
  cases hp : NarInfo.parse E s whence with
  | error e => rw [parse_error hp]
  | ok r => exact absurd hp (h r)

theorem parse_ok {E : Env} {s whence : Str} {r : NarInfo}
    (h : NarInfo.parse E s whence = Except.ok r) :
    ∃ r₀, scan E s NarInfo.init = Except.ok r₀ ∧ finish r₀ = Except.ok r := by
  rw [parse_eq_scan] at h
  cases hs : scan E s NarInfo.init with
  | error e' => rw [hs] at h; exact absurd h (by simp)
  | ok r₀ => rw [hs] at h; exact ⟨r₀, rfl, h⟩

/-! ## Texts made of complete lines: lemmas -/

theorem scan_renderLines (E : Env) (rest : Str) : ∀ (L : List Line) (r : NarInfo),
    (∀ l ∈ L, l.WellFormed) →
    scan E (renderLines L ++ rest) r
      = match processFields E L r with
        | Except.error e => Except.error e
        | Except.ok r' => scan E rest r'
  | [], r, _ => by simp [renderLines, processFields]
  | l :: ls, r, h => by
    have hl : l.WellFormed := h l (List.mem_cons_self _ _)
    have hls : ∀ l' ∈ ls, l'.WellFormed := fun l' hl' => h l' (List.mem_cons_of_mem _ hl')
    have ht : renderLines (l :: ls) ++ rest
        = l.name ++ ':' :: l.sep :: (l.value ++ '\n' :: (renderLines ls ++ rest)) := by
      simp [renderLines, Line.text, List.append_assoc]
    rw [ht, scan_line E l.name l.value _ l.sep r hl.1 hl.2]
    simp only [processFields]
    cases processField E l.name l.value r with
    | error e => rfl
    | ok r' => exact scan_renderLines E rest ls r' hls

theorem processFields_append (E : Env) : ∀ (L₁ L₂ : List Line) (r : NarInfo),
    processFields E (L₁ ++ L₂) r
      = match processFields E L₁ r with
        | Except.error e => Except.error e
        | Except.ok r' => processFields E L₂ r'
  | [], L₂, r => by simp [processFields]
  | l :: ls, L₂, r => by
    simp only [List.cons_append, processFields]
    cases processField E l.name l.value r with
    | error e => rfl
    | ok r' => exact processFields_append E ls L₂ r'

/-! ## Claims on rejected texts -/

theorem scan_ok_ends_newline (E : Env) (t : Str) (r r' : NarInfo)
    (h : scan E t r = Except.ok r') : t = [] ∨ t.getLast? = some '\n' := by
  refine scan_induction E
    (fun t _ res _ => ∀ r', res = Except.ok r' → t = [] ∨ t.getLast? = some '\n')
    ?_ ?_ ?_ ?_ ?_ t r r' h
  · intro r r' _; exact Or.inl rfl
  · intro t r _ _ r' h; exact absurd h (by simp [corrupt])
  · intro name tail r _ _ r' h; exact absurd h (by simp [corrupt])
  · intro name c value rest r e _ _ _ r' h; exact absurd h (by simp)
  · intro name c value rest r r₁ res fields _ _ _ ih r' h
    right
    have happ : ∀ (a b : Str), b.getLast? = some '\n' → (a ++ b).getLast? = some '\n' := by
      intro a b hb
      rw [List.getLast?_append, hb]; rfl
    rcases ih r' h with hr | hr
    · subst hr
      exact happ (name ++ ':' :: c :: value) ['\n'] rfl |> fun h => by simpa using h
    · have := happ (name ++ ':' :: c :: (value ++ ['\n'])) rest hr
      simpa using this

/-- C8: a text that does not end with a newline, the empty text included,
makes the constructor fail with CorruptInfo; said the other way round, a text
on which it succeeds is non-empty and ends with a newline. -/
theorem missing_final_newline_corrupt (E : Env) (s whence : Str) :
    (s.getLast? ≠ some '\n' → NarInfo.parse E s whence = Except.error Error.CorruptInfo)
      ∧ (∀ r, NarInfo.parse E s whence = Except.ok r → s ≠ [] ∧ s.getLast? = some '\n') := by
  have key : ∀ r, NarInfo.parse E s whence = Except.ok r → s ≠ [] ∧ s.getLast? = some '\n' := by
    intro r h
    obtain ⟨r₀, hs, hf⟩ := parse_ok h
    have hne : s ≠ [] := by
      intro e
      subst e
      rw [scan_nil] at hs
      cases hs
      exact (finish_ok hf).1 rfl
    rcases scan_ok_ends_newline E s _ _ hs with h' | h'
    · exact absurd h' hne
    · exact ⟨hne, h'⟩
  exact ⟨fun hlast => parse_not_ok (fun r hr => hlast (key r hr).2), key⟩

/-- A text with a `StorePath` and a `URL` line whose last line has no newline
fails, and so does the empty text. -/
theorem missing_final_newline_corrupt_witness :
    NarInfo.parse sampleEnv "StorePath: /nix/store/abc-foo\nURL: nar/xyz".toList []
        = Except.error Error.CorruptInfo
      ∧ NarInfo.parse sampleEnv [] [] = Except.error Error.CorruptInfo :=
  ⟨(missing_final_newline_corrupt sampleEnv _ []).1 (by decide),
    (missing_final_newline_corrupt sampleEnv [] []).1 (by decide)⟩

theorem scan_keeps_path_empty (E : Env) (t : Str) (r r' : NarInfo)
    (hf : ∀ f ∈ fieldsOf E t r, f.1 ≠ "StorePath".toList) (hr : r.path = [])
    (h : scan E t r = Except.ok r') : r'.path = [] := by
  refine scan_induction E
    (fun _ r res fields => (∀ f ∈ fields, f.1 ≠ "StorePath".toList) → r.path = [] →
      ∀ r', res = Except.ok r' → r'.path = [])
    ?_ ?_ ?_ ?_ ?_ t r hf hr r' h
  · intro r _ hr r' h; cases h; exact hr
  · intro t r _ _ _ _ r' h; exact absurd h (by simp [corrupt])
  · intro name tail r _ _ _ _ r' h; exact absurd h (by simp [corrupt])
  · intro name c value rest r e _ _ _ _ _ r' h; exact absurd h (by simp)
  · intro name c value rest r r₁ res fields _ _ hp ih hf hr r' h
    have hn : name ≠ "StorePath".toList := hf (name, value) (List.mem_cons_self _ _)
    exact ih (fun f hf' => hf f (List.mem_cons_of_mem _ hf'))
      ((processField_path hp hn).trans hr) r' h

theorem scan_keeps_url_empty (E : Env) (t : Str) (r r' : NarInfo)
    (hf : ∀ f ∈ fieldsOf E t r, f.1 ≠ "URL".toList) (hr : r.url = [])
    (h : scan E t r = Except.ok r') : r'.url = [] := by
  refine scan_induction E
    (fun _ r res fields => (∀ f ∈ fields, f.1 ≠ "URL".toList) → r.url = [] →
      ∀ r', res = Except.ok r' → r'.url = [])
    ?_ ?_ ?_ ?_ ?_ t r hf hr r' h
  · intro r _ hr r' h; cases h; exact hr
  · intro t r _ _ _ _ r' h; exact absurd h (by simp [corrupt])
  · intro name tail r _ _ _ _ r' h; exact absurd h (by simp [corrupt])
  · intro name c value rest r e _ _ _ _ _ r' h; exact absurd h (by simp)
  · intro name c value rest r r₁ res fields _ _ hp ih hf hr r' h
    have hn : name ≠ "URL".toList := hf (name, value) (List.mem_cons_self _ _)
    exact ih (fun f hf' => hf f (List.mem_cons_of_mem _ hf'))
      ((processField_url hp hn).trans hr) r' h

/-- C6: a text in which the constructor processes no `StorePath` line, or no
`URL` line, makes it fail with CorruptInfo; and it fails whenever the loop
ends with `path` or `url` still empty. -/
theorem mandatory_fields (E : Env) (s whence : Str) :
    ((∀ f ∈ NarInfo.processed E s, f.1 ≠ "StorePath".toList) →
        NarInfo.parse E s whence = Except.error Error.CorruptInfo)
      ∧ ((∀ f ∈ NarInfo.processed E s, f.1 ≠ "URL".toList) →
        NarInfo.parse E s whence = Except.error Error.CorruptInfo)
      ∧ (∀ r, parseLoop E s s.length 0 NarInfo.init = Except.ok r →
          r.path = [] ∨ r.url = [] →
          NarInfo.parse E s whence = Except.error Error.CorruptInfo) := by
  refine ⟨?_, ?_, ?_⟩
  · intro hf
    rw [processed_eq_fieldsOf] at hf
    refine parse_not_ok (fun r hr => ?_)
    obtain ⟨r₀, hs, hfin⟩ := parse_ok hr
    exact (finish_ok hfin).1 (scan_keeps_path_empty E s _ _ hf rfl hs)
  · intro hf
    rw [processed_eq_fieldsOf] at hf
    refine parse_not_ok (fun r hr => ?_)
    obtain ⟨r₀, hs, hfin⟩ := parse_ok hr
    exact (finish_ok hfin).2.1 (scan_keeps_url_empty E s _ _ hf rfl hs)
  · intro r hl hr
    unfold NarInfo.parse
    rw [hl]
    exact finish_corrupt hr

/-- A text without a `StorePath` line and a text without a `URL` line both fail. -/
theorem mandatory_fields_witness :
    NarInfo.parse sampleEnv "URL: nar/xyz.nar.bz2\nCompression: bzip2\n".toList []
        = Except.error Error.CorruptInfo
      ∧ NarInfo.parse sampleEnv "StorePath: /nix/store/abc-foo\nNarSize: 200\n".toList []
        = Except.error Error.CorruptInfo :=
  ⟨(mandatory_fields sampleEnv _ []).1 (by decide),
    (mandatory_fields sampleEnv _ []).2.1 (by decide)⟩

theorem processFields_error {E : Env} : ∀ {L : List Line} {r : NarInfo} {e : Error},
    processFields E L r = Except.error e → e = Error.CorruptInfo
  | [], r, e, h => by simp [processFields] at h
  | l :: ls, r, e, h => by
    simp only [processFields] at h
    cases hp : processField E l.name l.value r with
    | error e' => rw [hp] at h; cases h; exact processField_error hp
    | ok r' => rw [hp] at h; exact processFields_error h

theorem parse_renderLines (E : Env) (L : List Line) (t whence : Str)
    (hL : ∀ l ∈ L, l.WellFormed) :
    NarInfo.parse E (renderLines L ++ t) whence
      = match processFields E L NarInfo.init with
        | Except.error e => Except.error e
        | Except.ok r =>
          match scan E t r with
          | Except.error e => Except.error e
          | Except.ok r' => finish r' := by
  rw [parse_eq_scan, scan_renderLines E t L _ hL]
  cases processFields E L NarInfo.init <;> rfl

/-- C9, as the code has it: when the scan loop stands at the start of a line
(after complete lines `L`, each a name without a colon, the colon, one
character, a value without a newline, the newline) and the text that remains
is not empty and holds no colon at all, the constructor fails with
CorruptInfo. -/
theorem no_colon_in_rest_corrupt (E : Env) (L : List Line) (t whence : Str)
    (hL : ∀ l ∈ L, l.WellFormed) (ht : t ≠ []) (hc : ':' ∉ t) :
    NarInfo.parse E (renderLines L ++ t) whence = Except.error Error.CorruptInfo := by
  rw [parse_renderLines E L t whence hL]
  cases hp : processFields E L NarInfo.init with
  | error e => rw [processFields_error hp]
  | ok r => simp only [scan_no_colon E t r ht hc]; rfl

/-- After a `StorePath` and a `URL` line, the colon-less line `b` is rejected. -/
theorem no_colon_in_rest_corrupt_witness :
    NarInfo.parse sampleEnv "StorePath: /nix/store/x\nURL: u\nb\n".toList []
      = Except.error Error.CorruptInfo :=
  no_colon_in_rest_corrupt sampleEnv
    [⟨"StorePath".toList, ' ', "/nix/store/x".toList⟩, ⟨"URL".toList, ' ', "u".toList⟩]
    "b\n".toList [] (by decide) (by decide) (by decide)

set_option maxRecDepth 100000 in
/-- C9 fails as stated: the fourth line of this text, `b`, holds no colon, and
the constructor accepts the text: the colon of the third line `a:` is its last
character, so the newline after it is skipped as the separator and `b` is read
as the value of the field `a`. -/
theorem colonless_line_accepted :
    (∃ l ∈ textLines []
        ("StorePath: /nix/store/0123456789abcdfghijklmnpqrsvwxyz-foo\n".toList
          ++ "URL: nar/foo.nar\na:\nb\n".toList), ':' ∉ l)
      ∧ NarInfo.parse sampleEnv
          ("StorePath: /nix/store/0123456789abcdfghijklmnpqrsvwxyz-foo\n".toList
            ++ "URL: nar/foo.nar\na:\nb\n".toList) []
        = Except.ok { NarInfo.init with
            path := "/nix/store/0123456789abcdfghijklmnpqrsvwxyz-foo".toList,
            url := "nar/foo.nar".toList, compression := "bzip2".toList } :=
  ⟨by decide, by rfl⟩

theorem insertAscending_ne_nil (x : Str) : ∀ l : List Str, insertAscending x l ≠ []
  | [] => by simp [insertAscending]
  | y :: ys => by
    simp only [insertAscending]
    split_ifs <;> simp

theorem insertRefs_ne_nil {E : Env} : ∀ {refs : List Str} {s s' : StringSet},
    insertRefs E refs s = Except.ok s' → refs ≠ [] ∨ s.toList ≠ [] → s'.toList ≠ []
  | [], s, s', h, hne => by
    simp only [insertRefs, Except.ok.injEq] at h
    subst h
    simpa using hne
  | x :: xs, s, s', h, _ => by
    simp only [insertRefs] at h
    split_ifs at h
    · exact absurd h (by simp [corrupt])
    · exact insertRefs_ne_nil h (Or.inr (insertAscending_ne_nil _ _))

theorem processField_references_ne_nil {E : Env} {name value : Str} {r r' : NarInfo}
    (h : processField E name value r = Except.ok r') (hr : r.references.toList ≠ []) :
    r'.references = r.references := by
  rcases processField_ok h with h | h | h | h | h | h | h | h | h | h | h | h
  all_goals first
    | (obtain ⟨-, rfl⟩ := h; rfl)
    | (obtain ⟨-, -, -, rfl⟩ := h; rfl)
    | exact absurd h.2.1 hr

theorem processFields_references_ne_nil {E : Env} : ∀ {L : List Line} {r r' : NarInfo},
    processFields E L r = Except.ok r' → r.references.toList ≠ [] →
    r'.references.toList ≠ []
  | [], r, r', h, hr => by
    simp only [processFields, Except.ok.injEq] at h
    subst h; exact hr
  | l :: ls, r, r', h, hr => by
    simp only [processFields] at h
    cases hp : processField E l.name l.value r with
    | error e => rw [hp] at h; exact absurd h (by simp)
    | ok r₁ =>
      rw [hp] at h
      exact processFields_references_ne_nil h (by rw [processField_references_ne_nil hp hr]; exact hr)

theorem processField_References (E : Env) (value : Str) (r : NarInfo) :
    processField E "References".toList value r
      = if r.references.toList ≠ [] then corrupt
        else
          match insertRefs E (tokenizeString value " ".toList) r.references with
          | Except.error e => Except.error e
          | Except.ok s => Except.ok { r with references := s } := by
  rfl

/-- C5, as the code has it: a `References` line that the scan loop reaches
after an earlier `References` line that listed at least one name makes the
constructor fail with CorruptInfo, whatever the later line lists. The lines
before and between the two are complete lines (a name without a colon, the
colon, one character, a value without a newline, the newline); the text after
the second line is arbitrary. -/
theorem second_references_line_corrupt (E : Env) (L₁ L₂ : List Line) (c₁ c₂ : Char)
    (v₁ v₂ t whence : Str) (h₁ : ∀ l ∈ L₁, l.WellFormed) (h₂ : ∀ l ∈ L₂, l.WellFormed)
    (hv₁ : '\n' ∉ v₁) (hv₂ : '\n' ∉ v₂) (hne : tokenizeString v₁ " ".toList ≠ []) :
    NarInfo.parse E
        (renderLines (L₁ ++ [⟨"References".toList, c₁, v₁⟩] ++ L₂
          ++ [⟨"References".toList, c₂, v₂⟩]) ++ t) whence
      = Except.error Error.CorruptInfo := by
  have hwf : ∀ l ∈ L₁ ++ [⟨"References".toList, c₁, v₁⟩] ++ L₂
      ++ [(⟨"References".toList, c₂, v₂⟩ : Line)], l.WellFormed := by
    intro l hl
    simp only [List.mem_append, List.mem_singleton] at hl
    rcases hl with ((hl | hl) | hl) | hl
    · exact h₁ l hl
    · subst hl; exact ⟨(by decide : ':' ∉ "References".toList), hv₁⟩
    · exact h₂ l hl
    · subst hl; exact ⟨(by decide : ':' ∉ "References".toList), hv₂⟩
  refine parse_not_ok (fun r hr => ?_)
  rw [parse_renderLines E _ t whence hwf] at hr
  cases hp : processFields E (L₁ ++ [⟨"References".toList, c₁, v₁⟩] ++ L₂
      ++ [(⟨"References".toList, c₂, v₂⟩ : Line)]) NarInfo.init with
  | error e => rw [hp] at hr; exact absurd hr (by simp)
  | ok r₄ =>
    rw [processFields_append, processFields_append, processFields_append] at hp
    cases hp₁ : processFields E L₁ NarInfo.init with
    | error e => rw [hp₁] at hp; exact absurd hp (by simp)
    | ok r₁ =>
      rw [hp₁] at hp
      simp only [processFields] at hp
      cases hp₂ : processField E "References".toList v₁ r₁ with
      | error e => rw [hp₂] at hp; exact absurd hp (by simp)
      | ok r₂ =>
        rw [hp₂] at hp
        simp only at hp
        have hr₂ : r₂.references.toList ≠ [] := by
          rw [processField_References] at hp₂
          split_ifs at hp₂ with he
          · exact absurd hp₂ (by simp [corrupt])
          · cases hs : insertRefs E (tokenizeString v₁ " ".toList) r₁.references with
            | error e => rw [hs] at hp₂; exact absurd hp₂ (by simp)
            | ok s =>
              rw [hs] at hp₂
              simp only [Except.ok.injEq] at hp₂
              subst hp₂
              exact insertRefs_ne_nil hs (Or.inl hne)
        cases hp₃ : processFields E L₂ r₂ with
        | error e => rw [hp₃] at hp; exact absurd hp (by simp)
        | ok r₃ =>
          rw [hp₃] at hp
          simp only at hp
          have hr₃ := processFields_references_ne_nil hp₃ hr₂
          rw [processField_References, if_pos hr₃] at hp
          exact absurd hp (by simp [corrupt])

/-- Two `References` lines, the first one with a name: the text is rejected. -/
theorem second_references_line_corrupt_witness :
    NarInfo.parse sampleEnv
      "StorePath: /nix/store/x\nReferences: abc\nURL: u\nReferences: \n".toList []
      = Except.error Error.CorruptInfo :=
  second_references_line_corrupt sampleEnv [⟨"StorePath".toList, ' ', "/nix/store/x".toList⟩]
    [⟨"URL".toList, ' ', "u".toList⟩] ' ' ' ' "abc".toList [] [] []
    (by decide) (by decide) (by decide) (by decide) (by decide)

set_option maxRecDepth 100000 in
/-- C5 fails as stated: this text has two `References` lines, the first of
which lists no name, and the constructor accepts it, with the reference of the
second line. -/
theorem two_references_lines_accepted :
    NarInfo.processed sampleEnv
        ("StorePath: /nix/store/0123456789abcdfghijklmnpqrsvwxyz-foo\n".toList
          ++ "URL: nar/foo.nar\nReferences: \n".toList
          ++ "References: 0123456789abcdfghijklmnpqrsvwxyz-bar\n".toList)
        = [("StorePath".toList, "/nix/store/0123456789abcdfghijklmnpqrsvwxyz-foo".toList),
            ("URL".toList, "nar/foo.nar".toList), ("References".toList, []),
            ("References".toList, "0123456789abcdfghijklmnpqrsvwxyz-bar".toList)]
      ∧ NarInfo.parse sampleEnv
          ("StorePath: /nix/store/0123456789abcdfghijklmnpqrsvwxyz-foo\n".toList
            ++ "URL: nar/foo.nar\nReferences: \n".toList
            ++ "References: 0123456789abcdfghijklmnpqrsvwxyz-bar\n".toList) []
        = Except.ok { NarInfo.init with
            path := "/nix/store/0123456789abcdfghijklmnpqrsvwxyz-foo".toList,
            url := "nar/foo.nar".toList, compression := "bzip2".toList,
            references :=
              ⟨["/nix/store/0123456789abcdfghijklmnpqrsvwxyz-bar".toList], by decide⟩ } :=
  ⟨by rfl, by rfl⟩

/-! ## Signatures -/

theorem strLt_irrefl : ∀ (a : Str), strLt a a = false
  | [] => rfl
  | x :: xs => by simp [strLt, strLt_irrefl xs]

theorem isAscending_nodup : ∀ {l : List Str}, isAscending l = true → l.Nodup
  | [], _ => List.nodup_nil
  | x :: xs, h => by
    simp only [isAscending, Bool.and_eq_true, List.all_eq_true] at h
    refine List.nodup_cons.2 ⟨?_, isAscending_nodup h.2⟩
    intro hx
    have := h.1 x hx
    rw [strLt_irrefl] at this
    exact absurd this (by decide)

theorem mem_insertAscending_self (x : Str) : ∀ (l : List Str), x ∈ insertAscending x l
  | [] => by simp [insertAscending]
  | y :: ys => by
    simp only [insertAscending]
    split_ifs with h₁ h₂
    · exact List.mem_cons_self _ _
    · exact List.mem_cons_of_mem _ (mem_insertAscending_self x ys)
    · -- neither smaller nor greater: the two strings are equal
      have : ∀ (a b : Str), strLt a b = false → strLt b a = false → a = b := by
        intro a
        induction a with
        | nil => intro b; cases b <;> simp [strLt]
        | cons c cs ih =>
          intro b
          cases b with
          | nil => simp [strLt]
          | cons d ds =>
            intro hab hba
            simp only [strLt] at hab hba
            split_ifs at hab hba with h1 h2
            all_goals first
              | omega
              | (have hcd : c = d := by
                  apply Char.ext; apply UInt32.ext
                  have : c.toNat = d.toNat := by omega
                  simpa [Char.toNat, UInt32.toNat] using this
                 rw [hcd, ih ds hab hba])
      have hxy : x = y := this x y (by simpa using h₁) (by simpa using h₂)
      rw [hxy]; exact List.mem_cons_self _ _

theorem mem_insertAscending_of_mem {x z : Str} : ∀ {l : List Str},
    z ∈ l → z ∈ insertAscending x l
  | [], h => by simp at h
  | y :: ys, h => by
    simp only [insertAscending]
    split_ifs
    · exact List.mem_cons_of_mem _ h
    · rcases List.mem_cons.1 h with h | h
      · rw [h]; exact List.mem_cons_self _ _
      · exact List.mem_cons_of_mem _ (mem_insertAscending_of_mem h)
    · exact h

theorem countGood_eq {SecretKey PublicKeys : Type} (E : Env) (C : Crypto SecretKey PublicKeys)
    (r : NarInfo) (publicKeys : PublicKeys) : ∀ (sigs : List Str) (good : Nat),
    countGood E C r publicKeys good sigs
      = good + sigs.countP (fun sig => C.verifyDetached (r.fingerprint E) sig publicKeys)
  | [], good => by simp [countGood]
  | sig :: sigs, good => by
    simp only [countGood, List.countP_cons]
    split_ifs with h
    · rw [countGood_eq E C r publicKeys sigs]; omega
    · rw [countGood_eq E C r publicKeys sigs]; omega

theorem countP_eq_one_of_nodup {a : Str} : ∀ {l : List Str}, l.Nodup → a ∈ l →
    l.countP (fun x => decide (x = a)) = 1
  | [], _, ha => by simp at ha
  | y :: ys, hn, ha => by
    rw [List.nodup_cons] at hn
    rw [List.countP_cons]
    by_cases hy : y = a
    · subst hy
      have h0 : ys.countP (fun x => decide (x = y)) = 0 := by
        rw [List.countP_eq_zero]
        intro x hx
        simp only [decide_eq_true_eq]
        intro e
        exact hn.1 (e ▸ hx)
      simp [h0]
    · have ha' : a ∈ ys := by
        rcases List.mem_cons.1 ha with h | h
        · exact absurd h.symm hy
        · exact h
      simp [hy, countP_eq_one_of_nodup hn.2 ha']

theorem checkSignatures_eq_countP {SecretKey PublicKeys : Type} (E : Env)
    (C : Crypto SecretKey PublicKeys) (r : NarInfo) (publicKeys : PublicKeys) :
    r.checkSignatures E C publicKeys
      = r.sigs.toList.countP (fun sig => C.verifyDetached (r.fingerprint E) sig publicKeys) := by
  simp [NarInfo.checkSignatures, countGood_eq]

theorem fingerprint_sign {SecretKey PublicKeys : Type} (E : Env)
    (C : Crypto SecretKey PublicKeys) (r : NarInfo) (secretKey : SecretKey) :
    (r.sign E C secretKey).fingerprint E = r.fingerprint E := rfl

/-- C4, as the code has it: when the verifier accepts under `Kp` exactly the
signatures made with `K`, then for every record `r`, after `sign(r, K)` the
call `checkSignatures(r, Kp)` returns 1, whatever signatures `r` held before;
and `checkSignatures(r, other)` returns 0 for every key set `other` under
which neither the new signature nor any signature that `r` held before
verifies. -/
theorem sign_then_check {SecretKey PublicKeys : Type} (E : Env)
    (C : Crypto SecretKey PublicKeys) (r : NarInfo) (K : SecretKey) (Kp : PublicKeys)
    (hKp : ∀ m sig, C.verifyDetached m sig Kp = true ↔ sig = C.signDetached K m) :
    (r.sign E C K).checkSignatures E C Kp = 1
      ∧ ∀ other : PublicKeys,
          C.verifyDetached (r.fingerprint E) (C.signDetached K (r.fingerprint E)) other = false →
          (∀ sig ∈ r.sigs.toList, C.verifyDetached (r.fingerprint E) sig other = false) →
          (r.sign E C K).checkSignatures E C other = 0 := by
  constructor
  · rw [checkSignatures_eq_countP, fingerprint_sign]
    have hfun : (fun sig => C.verifyDetached (r.fingerprint E) sig Kp)
        = (fun sig => decide (sig = C.signDetached K (r.fingerprint E))) := by
      funext sig
      by_cases h : sig = C.signDetached K (r.fingerprint E)
      · simp [h, (hKp _ _).2 rfl]
      · have : C.verifyDetached (r.fingerprint E) sig Kp = false := by
          cases hv : C.verifyDetached (r.fingerprint E) sig Kp with
          | false => rfl
          | true => exact absurd ((hKp _ _).1 hv) h
        simp [h, this]
    rw [hfun]
    exact countP_eq_one_of_nodup (isAscending_nodup (r.sign E C K).sigs.property)
      (show C.signDetached K (r.fingerprint E) ∈ (r.sign E C K).sigs.val from
        mem_insertAscending_self _ _)
  · intro other hother hold
    rw [checkSignatures_eq_countP, fingerprint_sign, List.countP_eq_zero]
    intro sig hsig
    rcases mem_insertAscending (show sig ∈ insertAscending _ r.sigs.val from hsig) with h | h
    · rw [h, hother]; decide
    · rw [hold sig h]; decide

/-- A record that already holds a signature (one that verifies under neither
key), signed with the key `A`: exactly one signature verifies under `A`, and
none under `B`, under which neither the new nor the earlier signature
verifies. -/
theorem sign_then_check_witness :
    (∀ m sig, sampleCrypto.verifyDetached m sig ["A".toList] = true
        ↔ sig = sampleCrypto.signDetached "A".toList m)
      ∧ exampleRecordOther.sigs.toList ≠ []
      ∧ (exampleRecordOther.sign sampleEnv sampleCrypto "A".toList).checkSignatures
        sampleEnv sampleCrypto ["A".toList] = 1
      ∧ (exampleRecordOther.sign sampleEnv sampleCrypto "A".toList).checkSignatures
        sampleEnv sampleCrypto ["B".toList] = 0 :=
  ⟨by intro m sig; simp [sampleCrypto], by decide,
    (sign_then_check sampleEnv sampleCrypto exampleRecordOther "A".toList ["A".toList]
      (by intro m sig; simp [sampleCrypto])).1,
    (sign_then_check sampleEnv sampleCrypto exampleRecordOther "A".toList ["A".toList]
      (by intro m sig; simp [sampleCrypto])).2 ["B".toList] (by rfl) (by decide)⟩

/-- C4 fails as stated: in the sample signature scheme the verifier accepts
under the key `A` exactly the signatures made with `A`, and never accepts such
a signature under the key `B`; a record that was signed with `B` before it is
signed with `A` has one signature that verifies under `A` and one, not zero,
that verifies under `B`. -/
theorem other_key_counts_earlier_signature :
    (∀ m sig, sampleCrypto.verifyDetached m sig ["A".toList] = true
        ↔ sig = sampleCrypto.signDetached "A".toList m)
      ∧ (∀ m, sampleCrypto.verifyDetached m (sampleCrypto.signDetached "A".toList m)
          ["B".toList] = false)
      ∧ ((exampleRecord.sign sampleEnv sampleCrypto "B".toList).sign sampleEnv sampleCrypto
          "A".toList).checkSignatures sampleEnv sampleCrypto ["A".toList] = 1
      ∧ ((exampleRecord.sign sampleEnv sampleCrypto "B".toList).sign sampleEnv sampleCrypto
          "A".toList).checkSignatures sampleEnv sampleCrypto ["B".toList] = 1 :=
  ⟨by intro m sig; simp [sampleCrypto], by intro m; simp [sampleCrypto], by rfl, by rfl⟩

/-! ## References -/

theorem mem_foldl_insertAscending {z : Str} : ∀ (names acc : List Str),
    z ∈ names.foldl (fun acc n => insertAscending n acc) acc ↔ z ∈ acc ∨ z ∈ names
  | [], acc => by simp
  | n :: ns, acc => by
    simp only [List.foldl_cons, mem_foldl_insertAscending ns, List.mem_cons]
    constructor
    · rintro (h | h)
      · rcases mem_insertAscending h with h | h
        · exact Or.inr (Or.inl h)
        · exact Or.inl h
      · exact Or.inr (Or.inr h)
    · rintro (h | h | h)
      · exact Or.inl (mem_insertAscending_of_mem h)
      · exact Or.inl (h ▸ mem_insertAscending_self _ _)
      · exact Or.inr h

theorem insertAscending_last (x : Str) : ∀ (l : List Str),
    (∀ y ∈ l, strLt y x = true) → insertAscending x l = l ++ [x]
  | [], _ => rfl
  | y :: ys, h => by
    have hy : strLt y x = true := h y (List.mem_cons_self _ _)
    have hxy : strLt x y = false := by
      cases hxy : strLt x y with
      | false => rfl
      | true =>
        have := strLt_trans x y x hxy hy
        rw [strLt_irrefl] at this
        exact absurd this (by decide)
    simp only [insertAscending, hxy, hy, if_true, Bool.false_eq_true, if_false,
      List.cons_append]
    rw [insertAscending_last x ys (fun z hz => h z (List.mem_cons_of_mem _ hz))]

theorem foldl_insertAscending_ascending : ∀ (names acc : List Str),
    isAscending (acc ++ names) = true →
    names.foldl (fun acc n => insertAscending n acc) acc = acc ++ names
  | [], acc, _ => by simp
  | n :: ns, acc, h => by
    have hall : ∀ (l : List Str) (x : Str) (m : List Str), isAscending (l ++ x :: m) = true →
        ∀ y ∈ l, strLt y x = true := by
      intro l
      induction l with
      | nil => intro x m _ y hy; simp at hy
      | cons z zs ih =>
        intro x m hasc y hy
        simp only [List.cons_append, isAscending, Bool.and_eq_true, List.all_eq_true] at hasc
        rcases List.mem_cons.1 hy with e | e
        · subst e; exact hasc.1 x (by simp)
        · exact ih x m hasc.2 y e
    simp only [List.foldl_cons]
    rw [insertAscending_last n acc (hall acc n ns h),
      foldl_insertAscending_ascending ns (acc ++ [n]) (by simpa using h)]
    simp

theorem insertRefs_ok {E : Env} : ∀ {refs : List Str} {s s' : StringSet},
    insertRefs E refs s = Except.ok s' →
    (∀ n ∈ refs, E.isStorePath (E.nixStore ++ "/".toList ++ n) = true)
      ∧ s'.val = refs.foldl
          (fun acc n => insertAscending (E.nixStore ++ "/".toList ++ n) acc) s.val
  | [], s, s', h => by
    simp only [insertRefs, Except.ok.injEq] at h
    subst h
    simp
  | x :: xs, s, s', h => by
    simp only [insertRefs] at h
    by_cases hv : E.isStorePath (E.nixStore ++ "/".toList ++ x) = true
    · rw [if_neg (by rw [hv]; decide)] at h
      obtain ⟨h₁, h₂⟩ := insertRefs_ok h
      refine ⟨?_, ?_⟩
      · intro n hn
        rcases List.mem_cons.1 hn with e | e
        · rw [e]; exact hv
        · exact h₁ n e
      · rw [h₂]; rfl
    · rw [if_pos (by rw [Bool.not_eq_true] at hv; rw [hv]; rfl)] at h
      exact absurd h (by simp [corrupt])

theorem insertRefs_of_valid {E : Env} : ∀ (refs : List Str) (s : StringSet),
    (∀ n ∈ refs, E.isStorePath (E.nixStore ++ "/".toList ++ n) = true) →
    ∃ s', insertRefs E refs s = Except.ok s'
  | [], s, _ => ⟨s, rfl⟩
  | x :: xs, s, h => by
    have hv := h x (List.mem_cons_self _ _)
    simp only [insertRefs]
    rw [if_neg (by rw [hv]; decide)]
    exact insertRefs_of_valid xs _ (fun n hn => h n (List.mem_cons_of_mem _ hn))

theorem tokenizeFrom_append (seps : Str) : ∀ (n cur rest : Str), (∀ c ∈ n, c ∉ seps) →
    tokenizeFrom seps cur (n ++ rest) = tokenizeFrom seps (cur ++ n) rest
  | [], cur, rest, _ => by simp
  | c :: cs, cur, rest, h => by
    have hc : c ∉ seps := h c (List.mem_cons_self _ _)
    have ih := tokenizeFrom_append seps cs (cur ++ [c]) rest
      (fun d hd => h d (List.mem_cons_of_mem _ hd))
    rw [List.cons_append, tokenizeFrom, if_neg hc, ih]
    simp

theorem tokenizeString_concatStringsSep : ∀ (names : List Str),
    (∀ n ∈ names, n ≠ [] ∧ ' ' ∉ n) →
    tokenizeString (concatStringsSep " ".toList names) " ".toList = names
  | [], _ => rfl
  | [x], h => by
    have hx := h x (List.mem_cons_self _ _)
    have := tokenizeFrom_append " ".toList x [] [] (by
      intro c hc hs
      have : c = ' ' := by simpa using hs
      exact hx.2 (this ▸ hc))
    simp only [List.append_nil, List.nil_append] at this
    simp only [tokenizeString, concatStringsSep, this, tokenizeFrom, hx.1, if_false]
  | x :: y :: rest, h => by
    have hx := h x (List.mem_cons_self _ _)
    have ih := tokenizeString_concatStringsSep (y :: rest)
      (fun n hn => h n (List.mem_cons_of_mem _ hn))
    have := tokenizeFrom_append " ".toList x []
      (" ".toList ++ concatStringsSep " ".toList (y :: rest)) (by
      intro c hc hs
      have : c = ' ' := by simpa using hs
      exact hx.2 (this ▸ hc))
    simp only [List.nil_append] at this
    simp only [tokenizeString, concatStringsSep, List.append_assoc, this]
    have hsp : " ".toList ++ concatStringsSep " ".toList (y :: rest)
        = ' ' :: concatStringsSep " ".toList (y :: rest) := rfl
    rw [hsp]
    simp only [tokenizeFrom, hx.1, if_false]
    have hmem : ' ' ∈ " ".toList := by decide
    simp only [hmem, if_true]
    exact congrArg (x :: ·) ih

theorem digitChar_ne_newline (k : Nat) (hk : k < 10) : Nat.digitChar k ≠ '\n' := by
  interval_cases k <;> decide

theorem toDigitsCore_no_newline : ∀ (fuel n : Nat) (ds : List Char),
    '\n' ∉ ds → '\n' ∉ Nat.toDigitsCore 10 fuel n ds
  | 0, n, ds, h => by simpa [Nat.toDigitsCore] using h
  | fuel + 1, n, ds, h => by
    have hd : '\n' ∉ Nat.digitChar (n % 10) :: ds := by
      intro hm
      rcases List.mem_cons.1 hm with e | e
      · exact digitChar_ne_newline _ (Nat.mod_lt _ (by decide)) e.symm
      · exact h e
    simp only [Nat.toDigitsCore]
    split_ifs
    · exact hd
    · exact toDigitsCore_no_newline fuel _ _ hd

theorem std_to_string_no_newline (n : Nat) : '\n' ∉ std_to_string n :=
  toDigitsCore_no_newline _ _ _ (by simp)

theorem scan_fieldLine (E : Env) (name value rest : Str) (r : NarInfo)
    (hn : ':' ∉ name) (hv : '\n' ∉ value) :
    scan E (name ++ ": ".toList ++ value ++ "\n".toList ++ rest) r
      = match processField E name value r with
        | Except.error e => Except.error e
        | Except.ok r' => scan E rest r' := by
  have : name ++ ": ".toList ++ value ++ "\n".toList ++ rest
      = name ++ ':' :: ' ' :: (value ++ '\n' :: rest) := by
    simp [List.append_assoc]
  rw [this]
  exact scan_line E name value rest ' ' r hn hv

theorem processField_StorePath (E : Env) (value : Str) (r : NarInfo) :
    processField E "StorePath".toList value r
      = if !E.isStorePath value then corrupt else Except.ok { r with path := value } := rfl

theorem processField_URL (E : Env) (value : Str) (r : NarInfo) :
    processField E "URL".toList value r = Except.ok { r with url := value } := rfl

theorem processField_Compression (E : Env) (value : Str) (r : NarInfo) :
    processField E "Compression".toList value r
      = Except.ok { r with compression := value } := rfl

theorem processField_FileHash (E : Env) (value : Str) (r : NarInfo) :
    processField E "FileHash".toList value r
      = match parseHashField E value with
        | Except.error e => Except.error e
        | Except.ok h => Except.ok { r with fileHash := h } := rfl

theorem processField_FileSize (E : Env) (value : Str) (r : NarInfo) :
    processField E "FileSize".toList value r
      = match E.string2Int value with
        | none => corrupt
        | some n => Except.ok { r with fileSize := n } := rfl

theorem processField_NarHash (E : Env) (value : Str) (r : NarInfo) :
    processField E "NarHash".toList value r
      = match parseHashField E value with
        | Except.error e => Except.error e
        | Except.ok h => Except.ok { r with narHash := h } := rfl

theorem processField_NarSize (E : Env) (value : Str) (r : NarInfo) :
    processField E "NarSize".toList value r
      = match E.string2Int value with
        | none => corrupt
        | some n => Except.ok { r with narSize := n } := rfl

theorem processField_Deriver (E : Env) (value : Str) (r : NarInfo) :
    processField E "Deriver".toList value r
      = if !E.isStorePath (E.nixStore ++ "/".toList ++ value) then corrupt
        else Except.ok { r with deriver := E.nixStore ++ "/".toList ++ value } := rfl

theorem processField_System (E : Env) (value : Str) (r : NarInfo) :
    processField E "System".toList value r = Except.ok { r with system := value } := rfl

theorem processField_Sig (E : Env) (value : Str) (r : NarInfo) :
    processField E "Sig".toList value r
      = Except.ok { r with sigs := r.sigs.insert value } := rfl

theorem parseHashField_sha256 (E : Env) (digest : Str) :
    parseHashField E ("sha256:".toList ++ digest)
      = if E.parseHashType "sha256".toList = HashType.htUnknown then corrupt
        else
          match E.parseHash16or32 (E.parseHashType "sha256".toList) digest with
          | none => corrupt
          | some h => Except.ok h := by
  have hf : find ("sha256:".toList ++ digest) ':' 0 = some 6 := by
    have := findIn_append_cons (c := ':') "sha256".toList digest (by decide)
    simpa [find] using this
  have hs : substr ("sha256:".toList ++ digest) 0 6 = "sha256".toList := rfl
  have hd : ("sha256:".toList ++ digest).drop (6 + 1) = digest := rfl
  unfold parseHashField
  rw [hf]
  simp only [hs, hd]

/-- The loop over the `Sig` lines: every signature is inserted. -/
theorem scan_sigs (E : Env) : ∀ (sigs : List Str) (r : NarInfo),
    (∀ sig ∈ sigs, '\n' ∉ sig) →
    ∃ s : StringSet, s.val = sigs.foldl (fun acc sig => insertAscending sig acc) r.sigs.val
      ∧ scan E (sigs.map (fun sig => "Sig: ".toList ++ sig ++ "\n".toList)).flatten r
        = Except.ok { r with sigs := s }
  | [], r, _ => ⟨r.sigs, rfl, by simp [scan_nil]⟩
  | sig :: sigs, r, h => by
    have hsig := h sig (List.mem_cons_self _ _)
    obtain ⟨s, hs, hscan⟩ := scan_sigs E sigs { r with sigs := r.sigs.insert sig }
      (fun x hx => h x (List.mem_cons_of_mem _ hx))
    refine ⟨s, hs, ?_⟩
    have ht : ((sig :: sigs).map (fun sig => "Sig: ".toList ++ sig ++ "\n".toList)).flatten
        = "Sig".toList ++ ": ".toList ++ sig ++ "\n".toList
          ++ (sigs.map (fun sig => "Sig: ".toList ++ sig ++ "\n".toList)).flatten := by
      simp [List.append_assoc]
    rw [ht, scan_fieldLine E _ _ _ _ (by decide) hsig, processField_Sig]
    exact hscan

theorem intercalate_no_newline : ∀ (names : List Str), (∀ n ∈ names, '\n' ∉ n) →
    '\n' ∉ concatStringsSep " ".toList names
  | [], _ => by simp [concatStringsSep]
  | [x], h => by simpa [concatStringsSep] using h x (List.mem_cons_self _ _)
  | x :: y :: rest, h => by
    have hx := h x (List.mem_cons_self _ _)
    have ih := intercalate_no_newline (y :: rest) (fun n hn => h n (List.mem_cons_of_mem _ hn))
    simp only [concatStringsSep, List.mem_append, not_or]
    exact ⟨⟨hx, by decide⟩, ih⟩

theorem stringSet_eq_of_foldl (s t : StringSet)
    (h : s.val = t.val.foldl (fun acc x => insertAscending x acc) []) : s = t := by
  apply Subtype.ext
  rw [h]
  exact foldl_insertAscending_ascending t.val [] (by simpa using t.property)

theorem scan_tail (E : Env) (r r₀ : NarInfo) (h : RoundTrips E r)
    (hd : r₀.deriver = []) (hs : r₀.system = []) (hg : r₀.sigs = StringSet.empty) :
    scan E
      ((if r.deriver = [] then []
          else "Deriver: ".toList ++ E.baseNameOf r.deriver ++ "\n".toList)
        ++ (if r.system = [] then [] else "System: ".toList ++ r.system ++ "\n".toList)
        ++ (r.sigs.toList.map (fun sig => "Sig: ".toList ++ sig ++ "\n".toList)).flatten) r₀
      = Except.ok { r₀ with deriver := r.deriver, system := r.system, sigs := r.sigs } := by
  have hsigs : ∀ (r₁ : NarInfo), r₁.sigs = StringSet.empty →
      scan E (r.sigs.toList.map (fun sig => "Sig: ".toList ++ sig ++ "\n".toList)).flatten r₁
        = Except.ok { r₁ with sigs := r.sigs } := by
    intro r₁ h₁
    obtain ⟨s, hs, hscan⟩ := scan_sigs E r.sigs.toList r₁ h.sigs_line
    rw [hscan]
    have : s = r.sigs := stringSet_eq_of_foldl s r.sigs (by rw [hs, h₁]; rfl)
    rw [this]
  have hsys : ∀ (r₁ : NarInfo), r₁.system = [] → r₁.sigs = StringSet.empty →
      scan E ((if r.system = [] then [] else "System: ".toList ++ r.system ++ "\n".toList)
        ++ (r.sigs.toList.map (fun sig => "Sig: ".toList ++ sig ++ "\n".toList)).flatten) r₁
        = Except.ok { r₁ with system := r.system, sigs := r.sigs } := by
    intro r₁ h₁ h₂
    by_cases hsy : r.system = []
    · rw [if_pos hsy, List.nil_append, hsigs r₁ h₂, hsy, ← h₁]
    · rw [if_neg hsy]
      have ht : "System: ".toList ++ r.system ++ "\n".toList
            ++ (r.sigs.toList.map (fun sig => "Sig: ".toList ++ sig ++ "\n".toList)).flatten
          = "System".toList ++ ": ".toList ++ r.system ++ "\n".toList
            ++ (r.sigs.toList.map (fun sig => "Sig: ".toList ++ sig ++ "\n".toList)).flatten := by
        simp [List.append_assoc]
      rw [ht, scan_fieldLine E _ _ _ _ (by decide) h.system_line, processField_System]
      exact hsigs _ h₂
  by_cases hde : r.deriver = []
  · rw [if_pos hde, List.nil_append, hsys r₀ hs hg, hde, ← hd]
  · rw [if_neg hde]
    obtain ⟨hv, hform, hline⟩ := h.deriver_ok hde
    have ht : "Deriver: ".toList ++ E.baseNameOf r.deriver ++ "\n".toList
          ++ (if r.system = [] then [] else "System: ".toList ++ r.system ++ "\n".toList)
          ++ (r.sigs.toList.map (fun sig => "Sig: ".toList ++ sig ++ "\n".toList)).flatten
        = "Deriver".toList ++ ": ".toList ++ E.baseNameOf r.deriver ++ "\n".toList
          ++ ((if r.system = [] then [] else "System: ".toList ++ r.system ++ "\n".toList)
          ++ (r.sigs.toList.map (fun sig => "Sig: ".toList ++ sig ++ "\n".toList)).flatten) := by
      simp [List.append_assoc]
    rw [ht, scan_fieldLine E _ _ _ _ (by decide) hline, processField_Deriver, ← hform,
      if_neg (by rw [hv]; decide)]
    exact hsys _ hs hg

theorem scan_canonicalText (E : Env) (r : NarInfo) (h : RoundTrips E r) :
    scan E (canonicalText E r) NarInfo.init = Except.ok r := by
  have htext : canonicalText E r
      = "StorePath".toList ++ ": ".toList ++ r.path ++ "\n".toList
        ++ ("URL".toList ++ ": ".toList ++ r.url ++ "\n".toList
        ++ ("Compression".toList ++ ": ".toList ++ r.compression ++ "\n".toList
        ++ ("FileHash".toList ++ ": ".toList
            ++ ("sha256:".toList ++ E.printHash32 r.fileHash) ++ "\n".toList
        ++ ("FileSize".toList ++ ": ".toList ++ std_to_string r.fileSize ++ "\n".toList
        ++ ("NarHash".toList ++ ": ".toList
            ++ ("sha256:".toList ++ E.printHash32 r.narHash) ++ "\n".toList
        ++ ("NarSize".toList ++ ": ".toList ++ std_to_string r.narSize ++ "\n".toList
        ++ ("References".toList ++ ": ".toList
            ++ concatStringsSep " ".toList (r.shortRefs E) ++ "\n".toList
        ++ ((if r.deriver = [] then []
              else "Deriver: ".toList ++ E.baseNameOf r.deriver ++ "\n".toList)
            ++ (if r.system = [] then []
              else "System: ".toList ++ r.system ++ "\n".toList)
            ++ (r.sigs.toList.map
                (fun sig => "Sig: ".toList ++ sig ++ "\n".toList)).flatten)))))))) := by
    have hd : ∀ n, (Nat.repr n).toList = std_to_string n := fun _ => rfl
    simp only [canonicalText, hd, concatStringsSep_eq_intercalate, NarInfo.shortRefs,
      List.append_assoc]
    rfl
  have hnames : ∀ n ∈ r.shortRefs E, n ≠ [] ∧ ' ' ∉ n := by
    intro n hn
    obtain ⟨p, hp, rfl⟩ := List.mem_map.1 hn
    exact ⟨(h.references_ok p hp).2.2.1, (h.references_ok p hp).2.2.2.1⟩
  have hnl : '\n' ∉ concatStringsSep " ".toList (r.shortRefs E) := by
    apply intercalate_no_newline
    intro n hn
    obtain ⟨p, hp, rfl⟩ := List.mem_map.1 hn
    exact (h.references_ok p hp).2.2.2.2
  have hrefs : insertRefs E (r.shortRefs E) NarInfo.init.references = Except.ok r.references := by
    obtain ⟨s, hs⟩ := insertRefs_of_valid (E := E) (r.shortRefs E) NarInfo.init.references (by
      intro n hn
      obtain ⟨p, hp, rfl⟩ := List.mem_map.1 hn
      rw [← (h.references_ok p hp).2.1]
      exact (h.references_ok p hp).1)
    rw [hs]
    congr 1
    apply stringSet_eq_of_foldl
    rw [(insertRefs_ok hs).2]
    simp only [NarInfo.shortRefs, List.foldl_map, NarInfo.init, StringSet.empty]
    have hgen : ∀ (l acc : List Str),
        (∀ p ∈ l, p = E.nixStore ++ "/".toList ++ E.baseNameOf p) →
        l.foldl (fun acc p => insertAscending (E.nixStore ++ "/".toList ++ E.baseNameOf p) acc)
            acc
          = l.foldl (fun acc p => insertAscending p acc) acc := by
      intro l
      induction l with
      | nil => intro acc _; rfl
      | cons p ps ih =>
        intro acc hl
        simp only [List.foldl_cons]
        rw [← hl p (List.mem_cons_self _ _)]
        exact ih _ (fun q hq => hl q (List.mem_cons_of_mem _ hq))
    exact hgen r.references.val [] (fun p hp => (h.references_ok p hp).2.1)
  have hfh : '\n' ∉ "sha256:".toList ++ E.printHash32 r.fileHash := by
    intro hm
    rcases List.mem_append.1 hm with e | e
    · exact absurd e (by decide)
    · exact h.fileHash_line e
  have hnh : '\n' ∉ "sha256:".toList ++ E.printHash32 r.narHash := by
    intro hm
    rcases List.mem_append.1 hm with e | e
    · exact absurd e (by decide)
    · exact h.narHash_line e
  have hunk : ¬ (HashType.htSHA256 = HashType.htUnknown) := by decide
  rw [htext,
    scan_fieldLine E _ _ _ _ (by decide) h.path_line, processField_StorePath,
    if_neg (by rw [h.path_valid]; decide)]
  simp only []
  rw [scan_fieldLine E _ _ _ _ (by decide) h.url_line, processField_URL]
  simp only []
  rw [scan_fieldLine E _ _ _ _ (by decide) h.compression_line, processField_Compression]
  simp only []
  rw [scan_fieldLine E _ _ _ _ (by decide) hfh, processField_FileHash, parseHashField_sha256,
    h.sha256_name, if_neg hunk, h.fileHash_parse]
  simp only []
  rw [scan_fieldLine E _ _ _ _ (by decide) (std_to_string_no_newline _), processField_FileSize,
    h.fileSize_parse]
  simp only []
  rw [scan_fieldLine E _ _ _ _ (by decide) hnh, processField_NarHash, parseHashField_sha256,
    h.sha256_name, if_neg hunk, h.narHash_parse]
  simp only []
  rw [scan_fieldLine E _ _ _ _ (by decide) (std_to_string_no_newline _), processField_NarSize,
    h.narSize_parse]
  simp only []
  rw [scan_fieldLine E _ _ _ _ (by decide) hnl, processField_References,
    if_neg (by simp [NarInfo.init, StringSet.empty, StringSet.toList]),
    tokenizeString_concatStringsSep _ hnames]
  simp only []
  rw [hrefs]
  simp only []
  rw [scan_tail E r _ h rfl rfl rfl]

/-- C1, as the code has it: for a record that the text format can carry (see
`RoundTrips`: sha256 hashes and a non-empty compression, a valid non-empty
path, a non-empty url, no newline in a string that fills a line, references
and deriver that are store paths directly under the store root with base names
free of spaces and newlines, and collaborators that read back what they
print), `to_string` returns a text and the constructor applied to this text
returns the record itself. -/
theorem round_trip (E : Env) (r : NarInfo) (whence : Str) (h : RoundTrips E r) :
    ∃ text, r.to_string E = some text ∧ NarInfo.parse E text whence = Except.ok r := by
  refine ⟨canonicalText E r,
    to_string_eq_canonicalText E r h.compression_ne h.fileHash_sha256 h.narHash_sha256, ?_⟩
  rw [parse_eq_scan, scan_canonicalText E r h]
  simp only [finish, h.compression_ne, if_false, h.path_ne, h.url_ne, or_self]

/-- The second sample record, which has a deriver, a system and a signature,
is written and read back. -/
theorem round_trip_witness :
    ∃ text, exampleRecordOther.to_string sampleEnv = some text
      ∧ NarInfo.parse sampleEnv text [] = Except.ok exampleRecordOther :=
  round_trip sampleEnv exampleRecordOther []
    { compression_ne := by decide
      fileHash_sha256 := rfl
      narHash_sha256 := rfl
      path_ne := by decide
      path_valid := by rfl
      url_ne := by decide
      path_line := by decide
      url_line := by decide
      compression_line := by decide
      system_line := by decide
      sigs_line := by decide
      sha256_name := by rfl
      fileHash_line := by decide
      fileHash_parse := by rfl
      narHash_line := by decide
      narHash_parse := by rfl
      fileSize_parse := by rfl
      narSize_parse := by rfl
      references_ok := by decide
      deriver_ok := fun _ => ⟨by rfl, by rfl, by decide⟩ }

set_option maxRecDepth 100000 in
/-- C1 fails as stated: this record has sha256 hashes, a valid path and a
non-empty url; its url holds a newline, `to_string` writes it as it is, and
the constructor reads back another record, with the url cut at the newline
and a system the record did not have. -/
theorem round_trip_fails_on_newline :
    exampleRecordNewline.fileHash.type = HashType.htSHA256
      ∧ exampleRecordNewline.narHash.type = HashType.htSHA256
      ∧ exampleRecordNewline.to_string sampleEnv = some
          ("StorePath: /nix/store/0123456789abcdfghijklmnpqrsvwxyz-foo\n".toList
            ++ "URL: nar/foo.nar\nSystem: evil\n".toList
            ++ "Compression: bzip2\nFileHash: sha256:0a1b\nFileSize: 100\n".toList
            ++ "NarHash: sha256:0c2d\nNarSize: 200\n".toList
            ++ "References: 0123456789abcdfghijklmnpqrsvwxyz-foo\n".toList)
      ∧ NarInfo.parse sampleEnv
          ("StorePath: /nix/store/0123456789abcdfghijklmnpqrsvwxyz-foo\n".toList
            ++ "URL: nar/foo.nar\nSystem: evil\n".toList
            ++ "Compression: bzip2\nFileHash: sha256:0a1b\nFileSize: 100\n".toList
            ++ "NarHash: sha256:0c2d\nNarSize: 200\n".toList
            ++ "References: 0123456789abcdfghijklmnpqrsvwxyz-foo\n".toList) []
          = Except.ok exampleRecordReadBack
      ∧ exampleRecordReadBack ≠ exampleRecordNewline :=
  ⟨rfl, rfl, by rfl, by rfl, fun h => absurd (congrArg NarInfo.system h) (by decide)⟩

/-! ## Frame of the field dispatch -/

/-- What an accepted field leaves as it was: every member other than the one
its name selects. -/
theorem processField_frame {E : Env} {name value : Str} {r r' : NarInfo}
    (h : processField E name value r = Except.ok r') :
    (name ≠ "StorePath".toList → r'.path = r.path)
      ∧ (name ≠ "URL".toList → r'.url = r.url)
      ∧ (name ≠ "Compression".toList → r'.compression = r.compression)
      ∧ (name ≠ "FileHash".toList → r'.fileHash = r.fileHash)
      ∧ (name ≠ "FileSize".toList → r'.fileSize = r.fileSize)
      ∧ (name ≠ "NarHash".toList → r'.narHash = r.narHash)
      ∧ (name ≠ "NarSize".toList → r'.narSize = r.narSize)
      ∧ (name ≠ "References".toList → r'.references = r.references)
      ∧ (name ≠ "Deriver".toList → r'.deriver = r.deriver)
      ∧ (name ≠ "System".toList → r'.system = r.system)
      ∧ (name ≠ "Sig".toList → r'.sigs = r.sigs) := by
  rcases processField_ok h with h | h | h | h | h | h | h | h | h | h | h | h
  · obtain ⟨hn, -, rfl⟩ := h
    refine ⟨fun c => absurd hn c, ?_, ?_, ?_, ?_, ?_, ?_, ?_, ?_, ?_, ?_⟩ <;> intro _ <;> rfl
  · obtain ⟨hn, rfl⟩ := h
    refine ⟨?_, fun c => absurd hn c, ?_, ?_, ?_, ?_, ?_, ?_, ?_, ?_, ?_⟩ <;> intro _ <;> rfl
  · obtain ⟨hn, rfl⟩ := h
    refine ⟨?_, ?_, fun c => absurd hn c, ?_, ?_, ?_, ?_, ?_, ?_, ?_, ?_⟩ <;> intro _ <;> rfl
  · obtain ⟨hn, hash, -, rfl⟩ := h
    refine ⟨?_, ?_, ?_, fun c => absurd hn c, ?_, ?_, ?_, ?_, ?_, ?_, ?_⟩ <;> intro _ <;> rfl
  · obtain ⟨hn, n, -, rfl⟩ := h
    refine ⟨?_, ?_, ?_, ?_, fun c => absurd hn c, ?_, ?_, ?_, ?_, ?_, ?_⟩ <;> intro _ <;> rfl
  · obtain ⟨hn, hash, -, rfl⟩ := h
    refine ⟨?_, ?_, ?_, ?_, ?_, fun c => absurd hn c, ?_, ?_, ?_, ?_, ?_⟩ <;> intro _ <;> rfl
  · obtain ⟨hn, n, -, rfl⟩ := h
    refine ⟨?_, ?_, ?_, ?_, ?_, ?_, fun c => absurd hn c, ?_, ?_, ?_, ?_⟩ <;> intro _ <;> rfl
  · obtain ⟨hn, -, s, -, rfl⟩ := h
    refine ⟨?_, ?_, ?_, ?_, ?_, ?_, ?_, fun c => absurd hn c, ?_, ?_, ?_⟩ <;> intro _ <;> rfl
  · obtain ⟨hn, -, rfl⟩ := h
    refine ⟨?_, ?_, ?_, ?_, ?_, ?_, ?_, ?_, fun c => absurd hn c, ?_, ?_⟩ <;> intro _ <;> rfl
  · obtain ⟨hn, rfl⟩ := h
    refine ⟨?_, ?_, ?_, ?_, ?_, ?_, ?_, ?_, ?_, fun c => absurd hn c, ?_⟩ <;> intro _ <;> rfl
  · obtain ⟨hn, rfl⟩ := h
    refine ⟨?_, ?_, ?_, ?_, ?_, ?_, ?_, ?_, ?_, ?_, fun c => absurd hn c⟩ <;> intro _ <;> rfl
  · obtain ⟨-, rfl⟩ := h
    refine ⟨?_, ?_, ?_, ?_, ?_, ?_, ?_, ?_, ?_, ?_, ?_⟩ <;> intro _ <;> rfl

/-- A field whose name is none of the eleven names is accepted and changes
nothing. -/
theorem processField_unknown (E : Env) {name : Str} (value : Str) (r : NarInfo)
    (h : name ∉ ["StorePath".toList, "URL".toList, "Compression".toList, "FileHash".toList,
      "FileSize".toList, "NarHash".toList, "NarSize".toList, "References".toList,
      "Deriver".toList, "System".toList, "Sig".toList]) :
    processField E name value r = Except.ok r := by
  unfold processField
  generalize "StorePath".toList = k1 at h ⊢
  generalize "URL".toList = k2 at h ⊢
  generalize "Compression".toList = k3 at h ⊢
  generalize "FileHash".toList = k4 at h ⊢
  generalize "FileSize".toList = k5 at h ⊢
  generalize "NarHash".toList = k6 at h ⊢
  generalize "NarSize".toList = k7 at h ⊢
  generalize "References".toList = k8 at h ⊢
  generalize "Deriver".toList = k9 at h ⊢
  generalize "System".toList = k10 at h ⊢
  generalize "Sig".toList = k11 at h ⊢
  simp only [List.mem_cons, List.mem_nil_iff, or_false, not_or] at h
  obtain ⟨h1, h2, h3, h4, h5, h6, h7, h8, h9, h10, h11⟩ := h
  rw [if_neg h1, if_neg h2, if_neg h3, if_neg h4, if_neg h5, if_neg h6, if_neg h7, if_neg h8,
    if_neg h9, if_neg h10, if_neg h11]

/-! ## Default compression, unknown fields, the character after the colon -/

theorem scan_keeps_compression_empty (E : Env) (t : Str) (r r' : NarInfo)
    (hf : ∀ f ∈ fieldsOf E t r, f.1 ≠ "Compression".toList) (hr : r.compression = [])
    (h : scan E t r = Except.ok r') : r'.compression = [] := by
  refine scan_induction E
    (fun _ r res fields => (∀ f ∈ fields, f.1 ≠ "Compression".toList) → r.compression = [] →
      ∀ r', res = Except.ok r' → r'.compression = [])
    ?_ ?_ ?_ ?_ ?_ t r hf hr r' h
  · intro r _ hr r' h; cases h; exact hr
  · intro t r _ _ _ _ r' h; exact absurd h (by simp [corrupt])
  · intro name tail r _ _ _ _ r' h; exact absurd h (by simp [corrupt])
  · intro name c value rest r e _ _ _ _ _ r' h; exact absurd h (by simp)
  · intro name c value rest r r₁ res fields _ _ hp ih hf hr r' h
    have hn : name ≠ "Compression".toList := hf (name, value) (List.mem_cons_self _ _)
    exact ih (fun f hf' => hf f (List.mem_cons_of_mem _ hf'))
      (((processField_frame hp).2.2.1 hn).trans hr) r' h

/-- C11: when the constructor succeeds on a text in which it processes no
`Compression` line, the compression of the record is `bzip2`. -/
theorem default_compression (E : Env) (s whence : Str) (r : NarInfo)
    (hparse : NarInfo.parse E s whence = Except.ok r)
    (hnone : ∀ f ∈ NarInfo.processed E s, f.1 ≠ "Compression".toList) :
    r.compression = "bzip2".toList := by
  rw [processed_eq_fieldsOf] at hnone
  obtain ⟨r₀, hs, hfin⟩ := parse_ok hparse
  have h₀ := scan_keeps_compression_empty E s _ _ hnone rfl hs
  rw [(finish_ok hfin).2.2]
  simp only [h₀, if_true]

/-- A text with a `StorePath` and a `URL` line only parses to a record with
the compression `bzip2`. -/
theorem default_compression_witness :
    ∃ r, NarInfo.parse sampleEnv
        "StorePath: /nix/store/0123456789abcdfghijklmnpqrsvwxyz-foo\nURL: nar/foo.nar\n".toList
        [] = Except.ok r ∧ r.compression = "bzip2".toList :=
  ⟨{ NarInfo.init with
      path := "/nix/store/0123456789abcdfghijklmnpqrsvwxyz-foo".toList,
      url := "nar/foo.nar".toList, compression := "bzip2".toList }, by rfl,
    default_compression sampleEnv
      "StorePath: /nix/store/0123456789abcdfghijklmnpqrsvwxyz-foo\nURL: nar/foo.nar\n".toList
      [] _ (by rfl) (by decide)⟩

/-- C12: a line `N: V` whose name holds no colon and is none of the eleven
field names, and whose value holds no newline, is ignored: after any complete
lines (a name without a colon, the colon, one character, a value without a
newline, the newline) and before any text, the constructor returns the same
record or the same failure with the line as without it. -/
theorem unknown_field_ignored (E : Env) (L : List Line) (N V t₂ whence : Str)
    (hL : ∀ l ∈ L, l.WellFormed) (hN : ':' ∉ N)
    (hunknown : N ∉ ["StorePath".toList, "URL".toList, "Compression".toList,
      "FileHash".toList, "FileSize".toList, "NarHash".toList, "NarSize".toList,
      "References".toList, "Deriver".toList, "System".toList, "Sig".toList])
    (hV : '\n' ∉ V) :
    NarInfo.parse E (renderLines L ++ (N ++ ": ".toList ++ V ++ "\n".toList) ++ t₂) whence
      = NarInfo.parse E (renderLines L ++ t₂) whence := by
  have ht : renderLines L ++ (N ++ ": ".toList ++ V ++ "\n".toList) ++ t₂
      = renderLines L ++ (N ++ ": ".toList ++ V ++ "\n".toList ++ t₂) := by
    simp only [List.append_assoc]
  rw [ht, parse_renderLines E L _ whence hL, parse_renderLines E L t₂ whence hL]
  cases processFields E L NarInfo.init with
  | error e => rfl
  | ok r =>
    simp only []
    rw [scan_fieldLine E N V t₂ r hN hV, processField_unknown E V r hunknown]

/-- The unknown field `Foo` between a `StorePath` line and a `URL` line. -/
theorem unknown_field_ignored_witness :
    NarInfo.parse sampleEnv
        ("StorePath: /nix/store/0123456789abcdfghijklmnpqrsvwxyz-foo\n".toList
          ++ "Foo: bar\n".toList ++ "URL: nar/foo.nar\n".toList) []
      = NarInfo.parse sampleEnv
        ("StorePath: /nix/store/0123456789abcdfghijklmnpqrsvwxyz-foo\n".toList
          ++ "URL: nar/foo.nar\n".toList) [] :=
  unknown_field_ignored sampleEnv
    [⟨"StorePath".toList, ' ', "/nix/store/0123456789abcdfghijklmnpqrsvwxyz-foo".toList⟩]
    "Foo".toList "bar".toList "URL: nar/foo.nar\n".toList []
    (by decide) (by decide) (by decide) (by decide)

/-- C20: the character after the colon of a field is skipped, not read: with
a name without a colon and a value without a newline, the constructor returns
the same record or the same failure whatever this character is, a space, a
newline, a colon or any other. -/
theorem separator_not_inspected (E : Env) (N V t whence : Str) (c : Char)
    (hN : ':' ∉ N) (hV : '\n' ∉ V) :
    NarInfo.parse E (N ++ ":".toList ++ [c] ++ V ++ "\n".toList ++ t) whence
      = NarInfo.parse E (N ++ ": ".toList ++ V ++ "\n".toList ++ t) whence := by
  have h₁ : N ++ ":".toList ++ [c] ++ V ++ "\n".toList ++ t
      = N ++ ':' :: c :: (V ++ '\n' :: t) := by
    simp [List.append_assoc]
  have h₂ : N ++ ": ".toList ++ V ++ "\n".toList ++ t
      = N ++ ':' :: ' ' :: (V ++ '\n' :: t) := by
    simp [List.append_assoc]
  rw [h₁, h₂, parse_eq_scan, parse_eq_scan, scan_line E N V t c _ hN hV,
    scan_line E N V t ' ' _ hN hV]

/-- With a newline after the colon of `URL`, the text is read as with a space. -/
theorem separator_not_inspected_witness :
    NarInfo.parse sampleEnv
        ("URL".toList ++ ":".toList ++ ['\n'] ++ "nar/foo.nar".toList ++ "\n".toList
          ++ "StorePath: /nix/store/0123456789abcdfghijklmnpqrsvwxyz-foo\n".toList) []
      = NarInfo.parse sampleEnv
        ("URL".toList ++ ": ".toList ++ "nar/foo.nar".toList ++ "\n".toList
          ++ "StorePath: /nix/store/0123456789abcdfghijklmnpqrsvwxyz-foo\n".toList) [] :=
  separator_not_inspected sampleEnv "URL".toList "nar/foo.nar".toList
    "StorePath: /nix/store/0123456789abcdfghijklmnpqrsvwxyz-foo\n".toList [] '\n'
    (by decide) (by decide)

/-! ## Counting and adding signatures -/

theorem countP_insertAscending_of_false (p : Str → Bool) {x : Str} (hx : p x = false) :
    ∀ (l : List Str), (insertAscending x l).countP p = l.countP p
  | [] => by simp [insertAscending, hx]
  | y :: ys => by
    simp only [insertAscending]
    split_ifs
    · rw [List.countP_cons_of_neg _ _ (by simp [hx])]
    · rw [List.countP_cons, List.countP_cons, countP_insertAscending_of_false p hx ys]
    · rfl

theorem insertAscending_of_mem {x : Str} : ∀ {l : List Str}, isAscending l = true → x ∈ l →
    insertAscending x l = l
  | [], _, h => by simp at h
  | y :: ys, hasc, h => by
    simp only [isAscending, Bool.and_eq_true, List.all_eq_true] at hasc
    rcases List.mem_cons.1 h with e | e
    · subst e
      simp only [insertAscending, strLt_irrefl, Bool.false_eq_true, if_false]
    · have hyx : strLt y x = true := hasc.1 x e
      have hxy : strLt x y = false := by
        cases hxy : strLt x y with
        | false => rfl
        | true =>
          have := strLt_trans x y x hxy hyx
          rw [strLt_irrefl] at this
          exact absurd this (by decide)
      simp only [insertAscending, hxy, hyx, Bool.false_eq_true, if_false, if_true]
      rw [insertAscending_of_mem hasc.2 e]

/-- C13: `checkSignatures` returns the number of elements of `sigs` that the
verifier accepts as signatures of the fingerprint under the given keys. So it
returns 0 when `sigs` is empty and when no element verifies, it never exceeds
the number of elements of `sigs`, and inserting into `sigs` a string that does
not verify leaves the count as it was. The method only computes this number:
it returns no record. -/
theorem checkSignatures_counts {SecretKey PublicKeys : Type} (E : Env)
    (C : Crypto SecretKey PublicKeys) (r : NarInfo) (P : PublicKeys) :
    r.checkSignatures E C P
        = (r.sigs.toList.filter
            (fun sig => C.verifyDetached (r.fingerprint E) sig P)).length
      ∧ (r.sigs.toList = [] → r.checkSignatures E C P = 0)
      ∧ ((∀ sig ∈ r.sigs.toList, C.verifyDetached (r.fingerprint E) sig P = false) →
          r.checkSignatures E C P = 0)
      ∧ r.checkSignatures E C P ≤ r.sigs.toList.length
      ∧ (∀ garbage, C.verifyDetached (r.fingerprint E) garbage P = false →
          ({ r with sigs := r.sigs.insert garbage } : NarInfo).checkSignatures E C P
            = r.checkSignatures E C P) := by
  refine ⟨?_, ?_, ?_, ?_, ?_⟩
  · rw [checkSignatures_eq_countP, List.countP_eq_length_filter]
  · intro h
    rw [checkSignatures_eq_countP, h]
    rfl
  · intro h
    rw [checkSignatures_eq_countP, List.countP_eq_zero]
    intro sig hsig
    rw [h sig hsig]
    decide
  · rw [checkSignatures_eq_countP]
    exact List.countP_le_length _
  · intro garbage hg
    rw [checkSignatures_eq_countP, checkSignatures_eq_countP]
    exact countP_insertAscending_of_false _ hg r.sigs.val

/-- A record with one signature made with the key `A` and a string that is no
signature: one element verifies under `A`, none under `B`. -/
theorem checkSignatures_counts_witness :
    ({ exampleRecord with
        sigs := (exampleRecord.sign sampleEnv sampleCrypto "A".toList).sigs.insert
          "garbage".toList } : NarInfo).checkSignatures sampleEnv sampleCrypto ["A".toList]
        = 1
      ∧ (exampleRecord.sign sampleEnv sampleCrypto "A".toList).checkSignatures
          sampleEnv sampleCrypto ["B".toList] = 0 :=
  ⟨((checkSignatures_counts sampleEnv sampleCrypto
        (exampleRecord.sign sampleEnv sampleCrypto "A".toList) ["A".toList]).2.2.2.2
      "garbage".toList (by rfl)).trans (by rfl),
    (checkSignatures_counts sampleEnv sampleCrypto
        (exampleRecord.sign sampleEnv sampleCrypto "A".toList) ["B".toList]).2.2.1
      (by decide)⟩

/-- C14: `sign` inserts the detached signature of the fingerprint into `sigs`
and changes nothing else. The signatures the record held are still there, a
signature that was already there is not added a second time, the ten other
members are as they were, and the fingerprint is the same before and after. -/
theorem sign_touches_only_sigs {SecretKey PublicKeys : Type} (E : Env)
    (C : Crypto SecretKey PublicKeys) (r : NarInfo) (K : SecretKey) :
    (r.sign E C K).sigs = r.sigs.insert (C.signDetached K (r.fingerprint E))
      ∧ (∀ sig, sig ∈ (r.sign E C K).sigs.toList
          ↔ sig = C.signDetached K (r.fingerprint E) ∨ sig ∈ r.sigs.toList)
      ∧ (C.signDetached K (r.fingerprint E) ∈ r.sigs.toList → (r.sign E C K).sigs = r.sigs)
      ∧ ((r.sign E C K).path = r.path ∧ (r.sign E C K).url = r.url
          ∧ (r.sign E C K).compression = r.compression
          ∧ (r.sign E C K).fileHash = r.fileHash ∧ (r.sign E C K).fileSize = r.fileSize
          ∧ (r.sign E C K).narHash = r.narHash ∧ (r.sign E C K).narSize = r.narSize
          ∧ (r.sign E C K).references = r.references ∧ (r.sign E C K).deriver = r.deriver
          ∧ (r.sign E C K).system = r.system)
      ∧ (r.sign E C K).fingerprint E = r.fingerprint E := by
  refine ⟨rfl, ?_, ?_, ⟨rfl, rfl, rfl, rfl, rfl, rfl, rfl, rfl, rfl, rfl⟩, rfl⟩
  · intro sig
    constructor
    · intro h
      exact mem_insertAscending (show sig ∈ insertAscending _ r.sigs.val from h)
    · rintro (h | h)
      · rw [h]
        exact mem_insertAscending_self _ _
      · exact mem_insertAscending_of_mem h
  · intro h
    apply Subtype.ext
    exact insertAscending_of_mem r.sigs.property h

/-- Signing the second sample record with the key `A` adds one signature to
the one it holds; signing it a second time adds nothing. -/
theorem sign_touches_only_sigs_witness :
    (exampleRecordOther.sign sampleEnv sampleCrypto "A".toList).sigs.toList.length = 2
      ∧ ((exampleRecordOther.sign sampleEnv sampleCrypto "A".toList).sign sampleEnv
          sampleCrypto "A".toList).sigs
        = (exampleRecordOther.sign sampleEnv sampleCrypto "A".toList).sigs :=
  ⟨by rfl,
    (sign_touches_only_sigs sampleEnv sampleCrypto
      (exampleRecordOther.sign sampleEnv sampleCrypto "A".toList) "A".toList).2.2.1
      (by decide)⟩

/-! ## What the constructor guarantees of its record -/

theorem tokenizeFrom_tokens (seps : Str) : ∀ (s cur : Str), (∀ c ∈ cur, c ∉ seps) →
    ∀ tok ∈ tokenizeFrom seps cur s,
      tok ≠ [] ∧ ∀ c ∈ tok, c ∉ seps ∧ (c ∈ cur ∨ c ∈ s)
  | [], cur, hcur, tok, htok => by
    simp only [tokenizeFrom] at htok
    split_ifs at htok with h
    · simp at htok
    · have : tok = cur := by simpa using htok
      subst this
      exact ⟨h, fun c hc => ⟨hcur c hc, Or.inl hc⟩⟩
  | d :: ds, cur, hcur, tok, htok => by
    simp only [tokenizeFrom] at htok
    have widen : ∀ {cur' : Str}, (tok ≠ [] ∧ ∀ c ∈ tok, c ∉ seps ∧ (c ∈ cur' ∨ c ∈ ds)) →
        (∀ c ∈ cur', c ∈ cur ∨ c = d) →
        tok ≠ [] ∧ ∀ c ∈ tok, c ∉ seps ∧ (c ∈ cur ∨ c ∈ d :: ds) := by
      intro cur' h hsub
      refine ⟨h.1, fun c hc => ⟨(h.2 c hc).1, ?_⟩⟩
      rcases (h.2 c hc).2 with e | e
      · rcases hsub c e with e' | e'
        · exact Or.inl e'
        · exact Or.inr (e' ▸ List.mem_cons_self _ _)
      · exact Or.inr (List.mem_cons_of_mem _ e)
    by_cases hd : d ∈ seps
    · rw [if_pos hd] at htok
      by_cases hc : cur = []
      · rw [if_pos hc] at htok
        exact widen (tokenizeFrom_tokens seps ds [] (by simp) tok htok) (by simp)
      · rw [if_neg hc] at htok
        rcases List.mem_cons.1 htok with e | e
        · subst e
          exact ⟨hc, fun c hc' => ⟨hcur c hc', Or.inl hc'⟩⟩
        · exact widen (tokenizeFrom_tokens seps ds [] (by simp) tok e) (by simp)
    · rw [if_neg hd] at htok
      refine widen (tokenizeFrom_tokens seps ds (cur ++ [d]) ?_ tok htok) ?_
      · intro c hc
        rcases List.mem_append.1 hc with e | e
        · exact hcur c e
        · have : c = d := by simpa using e
          rw [this]; exact hd
      · intro c hc
        rcases List.mem_append.1 hc with e | e
        · exact Or.inl e
        · exact Or.inr (by simpa using e)

theorem tokenizeString_tokens (value : Str) :
    ∀ tok ∈ tokenizeString value " ".toList,
      tok ≠ [] ∧ ' ' ∉ tok ∧ ∀ c ∈ tok, c ∈ value := by
  intro tok htok
  obtain ⟨h₁, h₂⟩ := tokenizeFrom_tokens " ".toList value [] (by simp) tok htok
  refine ⟨h₁, fun hsp => (h₂ ' ' hsp).1 (by decide), fun c hc => ?_⟩
  rcases (h₂ c hc).2 with e | e
  · simp at e
  · exact e

theorem parsed_init (E : Env) : Parsed E NarInfo.init where
  path_ok := Or.inl rfl
  path_line := by simp [NarInfo.init]
  url_line := by simp [NarInfo.init]
  compression_line := by simp [NarInfo.init]
  system_line := by simp [NarInfo.init]
  sigs_line := by simp [NarInfo.init, StringSet.empty, StringSet.toList]
  references_ok := by simp [NarInfo.init, StringSet.empty, StringSet.toList]
  deriver_ok := Or.inl rfl

theorem insertRefs_mem {E : Env} {refs : List Str} {s s' : StringSet}
    (h : insertRefs E refs s = Except.ok s') {p : Str} (hp : p ∈ s'.toList) :
    p ∈ s.toList ∨ ∃ n ∈ refs, p = E.nixStore ++ "/".toList ++ n := by
  have hval := (insertRefs_ok h).2
  have hfold : refs.foldl (fun acc n => insertAscending (E.nixStore ++ "/".toList ++ n) acc)
      s.val = (refs.map (fun n => E.nixStore ++ "/".toList ++ n)).foldl
        (fun acc q => insertAscending q acc) s.val := by
    rw [List.foldl_map]
  have hp' : p ∈ s'.val := hp
  rw [hval, hfold, mem_foldl_insertAscending] at hp'
  rcases hp' with e | e
  · exact Or.inl e
  · obtain ⟨n, hn, rfl⟩ := List.mem_map.1 e
    exact Or.inr ⟨n, hn, rfl⟩

theorem processField_parsed {E : Env} {name value : Str} {r r' : NarInfo}
    (hP : Parsed E r) (hv : '\n' ∉ value) (h : processField E name value r = Except.ok r') :
    Parsed E r' := by
  rcases processField_ok h with h | h | h | h | h | h | h | h | h | h | h | h
  · obtain ⟨-, hvalid, rfl⟩ := h
    exact { hP with path_ok := Or.inr hvalid, path_line := hv }
  · obtain ⟨-, rfl⟩ := h
    exact { hP with url_line := hv }
  · obtain ⟨-, rfl⟩ := h
    exact { hP with compression_line := hv }
  · obtain ⟨-, hash, -, rfl⟩ := h
    exact { hP with }
  · obtain ⟨-, n, -, rfl⟩ := h
    exact { hP with }
  · obtain ⟨-, hash, -, rfl⟩ := h
    exact { hP with }
  · obtain ⟨-, n, -, rfl⟩ := h
    exact { hP with }
  · obtain ⟨-, -, s, hs, rfl⟩ := h
    refine { hP with references_ok := ?_ }
    intro p hp
    rcases insertRefs_mem hs hp with e | ⟨n, hn, rfl⟩
    · exact hP.references_ok p e
    · obtain ⟨h₁, h₂, h₃⟩ := tokenizeString_tokens value n hn
      exact ⟨(insertRefs_ok hs).1 n hn, n, rfl, h₁, h₂, fun hc => hv (h₃ _ hc)⟩
  · obtain ⟨-, hvalid, rfl⟩ := h
    exact { hP with deriver_ok := Or.inr ⟨hvalid, value, rfl, hv⟩ }
  · obtain ⟨-, rfl⟩ := h
    exact { hP with system_line := hv }
  · obtain ⟨-, rfl⟩ := h
    refine { hP with sigs_line := ?_ }
    intro sig hsig
    rcases mem_insertAscending (show sig ∈ insertAscending value r.sigs.val from hsig)
      with e | e
    · rw [e]; exact hv
    · exact hP.sigs_line sig e
  · obtain ⟨-, rfl⟩ := h
    exact hP

theorem scan_parsed (E : Env) (t : Str) (r r' : NarInfo) (hP : Parsed E r)
    (h : scan E t r = Except.ok r') : Parsed E r' := by
  refine scan_induction E
    (fun _ r res _ => Parsed E r → ∀ r', res = Except.ok r' → Parsed E r')
    ?_ ?_ ?_ ?_ ?_ t r hP r' h
  · intro r hP r' h; cases h; exact hP
  · intro t r _ _ _ r' h; exact absurd h (by simp [corrupt])
  · intro name tail r _ _ _ r' h; exact absurd h (by simp [corrupt])
  · intro name c value rest r e _ _ _ _ r' h; exact absurd h (by simp)
  · intro name c value rest r r₁ res fields _ hv hp ih hP r' h
    exact ih (processField_parsed hP hv hp) r' h

theorem parse_parsed {E : Env} {s whence : Str} {r : NarInfo}
    (h : NarInfo.parse E s whence = Except.ok r) :
    Parsed E r ∧ r.path ≠ [] ∧ r.url ≠ [] ∧ r.compression ≠ [] := by
  obtain ⟨r₀, hs, hfin⟩ := parse_ok h
  have hP := scan_parsed E s _ _ (parsed_init E) hs
  obtain ⟨hpath, hurl, rfl⟩ := finish_ok hfin
  by_cases hc : r₀.compression = []
  · refine ⟨{ hP with compression_line := ?_ }, hpath, hurl, ?_⟩
    · simp only [hc, if_true]; decide
    · simp only [hc, if_true]; decide
  · refine ⟨{ hP with compression_line := ?_ }, hpath, hurl, ?_⟩
    · simp only [hc, if_false]; exact hP.compression_line
    · simp only [hc, if_false]; exact hc

/-- C15: the record of a successful parse has a non-empty path that is a
store path, a non-empty url, a non-empty compression, references that are
each the store root, a slash and a name, and store paths, and a deriver that
is empty or is the store root, a slash and a name, and a store path. -/
theorem parsed_record_invariant (E : Env) (s whence : Str) (r : NarInfo)
    (hparse : NarInfo.parse E s whence = Except.ok r) :
    r.path ≠ [] ∧ E.isStorePath r.path = true ∧ r.url ≠ [] ∧ r.compression ≠ []
      ∧ (∀ p ∈ r.references.toList,
          (∃ name, p = E.nixStore ++ "/".toList ++ name) ∧ E.isStorePath p = true)
      ∧ (r.deriver = [] ∨
          ((∃ name, r.deriver = E.nixStore ++ "/".toList ++ name)
            ∧ E.isStorePath r.deriver = true)) := by
  obtain ⟨hP, hpath, hurl, hcomp⟩ := parse_parsed hparse
  refine ⟨hpath, ?_, hurl, hcomp, ?_, ?_⟩
  · rcases hP.path_ok with e | e
    · exact absurd e hpath
    · exact e
  · intro p hp
    obtain ⟨hv, n, hn, -⟩ := hP.references_ok p hp
    exact ⟨⟨n, hn⟩, hv⟩
  · rcases hP.deriver_ok with e | ⟨hv, n, hn, -⟩
    · exact Or.inl e
    · exact Or.inr ⟨⟨n, hn⟩, hv⟩

/-- The record of the text with the references `abc` and `def` has the stated
properties. -/
theorem parsed_record_invariant_witness :
    exampleRefsRecord.path ≠ [] ∧ sampleEnv.isStorePath exampleRefsRecord.path = true
      ∧ exampleRefsRecord.url ≠ [] ∧ exampleRefsRecord.compression ≠ []
      ∧ (∀ p ∈ exampleRefsRecord.references.toList,
          (∃ name, p = sampleEnv.nixStore ++ "/".toList ++ name)
            ∧ sampleEnv.isStorePath p = true)
      ∧ (exampleRefsRecord.deriver = [] ∨
          ((∃ name, exampleRefsRecord.deriver = sampleEnv.nixStore ++ "/".toList ++ name)
            ∧ sampleEnv.isStorePath exampleRefsRecord.deriver = true)) :=
  parsed_record_invariant sampleEnv
    ("StorePath: /nix/store/abc-foo\nURL: nar/xyz.nar.bz2\nFileHash: sha256:0a1b\n".toList
      ++ "NarHash: sha256:0c2d\nReferences: abc def\n".toList) [] exampleRefsRecord (by rfl)

/-! ## The assertions of the serializer on parsed records -/

set_option maxRecDepth 100000 in
/-- C16 at its failing inputs: the constructor accepts a text without
`FileHash` and `NarHash` lines, and a text whose `FileHash` names the
algorithm `md5`; the file hash of the record is then of unknown algorithm,
or of the algorithm md5, and an assertion of `to_string` fails on the record
(while the compression, set to `bzip2`, passes the first assertion). -/
theorem parsed_record_fails_assertion :
    NarInfo.parse sampleEnv
        "StorePath: /nix/store/0123456789abcdfghijklmnpqrsvwxyz-foo\nURL: nar/foo.nar\n".toList
        []
        = Except.ok { NarInfo.init with
            path := "/nix/store/0123456789abcdfghijklmnpqrsvwxyz-foo".toList,
            url := "nar/foo.nar".toList, compression := "bzip2".toList }
      ∧ ({ NarInfo.init with
            path := "/nix/store/0123456789abcdfghijklmnpqrsvwxyz-foo".toList,
            url := "nar/foo.nar".toList,
            compression := "bzip2".toList } : NarInfo).fileHash.type = HashType.htUnknown
      ∧ ({ NarInfo.init with
            path := "/nix/store/0123456789abcdfghijklmnpqrsvwxyz-foo".toList,
            url := "nar/foo.nar".toList,
            compression := "bzip2".toList } : NarInfo).to_string sampleEnv = none
      ∧ NarInfo.parse sampleEnv
          ("StorePath: /nix/store/0123456789abcdfghijklmnpqrsvwxyz-foo\n".toList
            ++ "URL: nar/foo.nar\nFileHash: md5:0a1b\nNarHash: sha256:0c2d\n".toList) []
        = Except.ok { NarInfo.init with
            path := "/nix/store/0123456789abcdfghijklmnpqrsvwxyz-foo".toList,
            url := "nar/foo.nar".toList, compression := "bzip2".toList,
            fileHash := ⟨HashType.htMD5, [10, 43]⟩,
            narHash := ⟨HashType.htSHA256, [12, 77]⟩ }
      ∧ ({ NarInfo.init with
            path := "/nix/store/0123456789abcdfghijklmnpqrsvwxyz-foo".toList,
            url := "nar/foo.nar".toList, compression := "bzip2".toList,
            fileHash := ⟨HashType.htMD5, [10, 43]⟩,
            narHash := ⟨HashType.htSHA256, [12, 77]⟩ } : NarInfo).to_string sampleEnv
        = none :=
  ⟨by rfl, rfl, by rfl, by rfl, by rfl⟩

/-! ## Repeated fields -/

theorem processFields_last {α : Type} (E : Env) (X : Str) (π : NarInfo → α)
    (Rel : Str → α → Prop)
    (hset : ∀ v r r', processField E X v r = Except.ok r' → Rel v (π r'))
    (hframe : ∀ name v r r', name ≠ X → processField E name v r = Except.ok r' → π r' = π r) :
    ∀ (L : List Line) (r r' : NarInfo), processFields E L r = Except.ok r' →
      (∀ v, lastValue X L = some v → Rel v (π r')) ∧ (lastValue X L = none → π r' = π r)
  | [], r, r', h => by
    simp only [processFields, Except.ok.injEq] at h
    subst h
    exact ⟨fun v hv => by simp [lastValue] at hv, fun _ => rfl⟩
  | l :: ls, r, r', h => by
    simp only [processFields] at h
    cases hp : processField E l.name l.value r with
    | error e => rw [hp] at h; exact absurd h (by simp)
    | ok r₁ =>
      rw [hp] at h
      obtain ⟨ih₁, ih₂⟩ := processFields_last E X π Rel hset hframe ls r₁ r' h
      cases hl : lastValue X ls with
      | some w =>
        simp only [lastValue, hl]
        exact ⟨fun v hv => ih₁ v (by rw [hl]; exact hv), fun hn => by simp at hn⟩
      | none =>
        simp only [lastValue, hl]
        by_cases hname : l.name = X
        · simp only [hname, if_true, Option.some.injEq]
          refine ⟨fun v hv => ?_, fun hn => by simp at hn⟩
          subst hv
          rw [ih₂ hl]
          exact hset _ _ _ (hname ▸ hp)
        · simp only [hname, if_false]
          exact ⟨fun v hv => by simp at hv, fun _ => (ih₂ hl).trans (hframe _ _ _ _ hname hp)⟩

theorem processFields_sigs (E : Env) : ∀ (L : List Line) (r r' : NarInfo),
    processFields E L r = Except.ok r' →
      (∀ sig ∈ r.sigs.toList, sig ∈ r'.sigs.toList)
        ∧ (∀ l ∈ L, l.name = "Sig".toList → l.value ∈ r'.sigs.toList)
  | [], r, r', h => by
    simp only [processFields, Except.ok.injEq] at h
    subst h
    exact ⟨fun _ hs => hs, fun l hl => by simp at hl⟩
  | l :: ls, r, r', h => by
    simp only [processFields] at h
    cases hp : processField E l.name l.value r with
    | error e => rw [hp] at h; exact absurd h (by simp)
    | ok r₁ =>
      rw [hp] at h
      obtain ⟨ih₁, ih₂⟩ := processFields_sigs E ls r₁ r' h
      have hmono : ∀ sig ∈ r.sigs.toList, sig ∈ r₁.sigs.toList := by
        intro sig hs
        by_cases hname : l.name = "Sig".toList
        · rw [hname, processField_Sig] at hp
          cases hp
          exact mem_insertAscending_of_mem hs
        · rw [(processField_frame hp).2.2.2.2.2.2.2.2.2.2 hname]
          exact hs
      refine ⟨fun sig hs => ih₁ sig (hmono sig hs), fun l' hl' hname => ?_⟩
      rcases List.mem_cons.1 hl' with e | e
      · subst e
        rw [hname, processField_Sig] at hp
        cases hp
        exact ih₁ _ (mem_insertAscending_self _ _)
      · exact ih₂ l' e hname

theorem parse_renderLines_ok {E : Env} {L : List Line} {whence : Str} {r : NarInfo}
    (hL : ∀ l ∈ L, l.WellFormed)
    (h : NarInfo.parse E (renderLines L) whence = Except.ok r) :
    ∃ r₀, processFields E L NarInfo.init = Except.ok r₀ ∧ finish r₀ = Except.ok r := by
  have := parse_renderLines E L [] whence hL
  rw [List.append_nil] at this
  rw [this] at h
  cases hp : processFields E L NarInfo.init with
  | error e => rw [hp] at h; exact absurd h (by simp)
  | ok r₀ =>
    rw [hp] at h
    simp only [scan_nil] at h
    exact ⟨r₀, rfl, h⟩

/-- Whether a field other than `References` is accepted does not depend on the
record, that is, on the lines read before it. -/
theorem processField_accepts_any_record {E : Env} {name value : Str} {r₁ r₁' : NarInfo}
    (h : processField E name value r₁ = Except.ok r₁') (hn : name ≠ "References".toList)
    (r₂ : NarInfo) : ∃ r₂', processField E name value r₂ = Except.ok r₂' := by
  rcases processField_ok h with h | h | h | h | h | h | h | h | h | h | h | h
  · obtain ⟨rfl, hv, -⟩ := h
    exact ⟨_, by rw [processField_StorePath, if_neg (by rw [hv]; decide)]⟩
  · obtain ⟨rfl, -⟩ := h
    exact ⟨_, processField_URL E value r₂⟩
  · obtain ⟨rfl, -⟩ := h
    exact ⟨_, processField_Compression E value r₂⟩
  · obtain ⟨rfl, hash, hh, -⟩ := h
    exact ⟨_, by rw [processField_FileHash, hh]⟩
  · obtain ⟨rfl, n, hh, -⟩ := h
    exact ⟨_, by rw [processField_FileSize, hh]⟩
  · obtain ⟨rfl, hash, hh, -⟩ := h
    exact ⟨_, by rw [processField_NarHash, hh]⟩
  · obtain ⟨rfl, n, hh, -⟩ := h
    exact ⟨_, by rw [processField_NarSize, hh]⟩
  · exact absurd h.1 hn
  · obtain ⟨rfl, hv, -⟩ := h
    exact ⟨_, by rw [processField_Deriver, if_neg (by rw [hv]; decide)]⟩
  · obtain ⟨rfl, -⟩ := h
    exact ⟨_, processField_System E value r₂⟩
  · obtain ⟨rfl, -⟩ := h
    exact ⟨_, processField_Sig E value r₂⟩
  · exact ⟨r₂, processField_unknown E value r₂ h.1⟩

/-- C17, as the code has it: when the constructor succeeds on a text made of
complete lines `L` (a name without a colon, the colon, one character, a value
without a newline, the newline), each scalar member holds what the last line
of its name gives: `path` and `url` and `system` its value, `compression` its
value, or `bzip2` when that value is empty, `fileHash` and `narHash` the hash
parsed from its value, `fileSize` and `narSize` the number parsed from its
value, `deriver` the store root, a slash and its value; and the value of every
`Sig` line is in `sigs`. Repeating a line is no error: whether a line other
than `References` is accepted does not depend on the lines before it. -/
theorem last_write_wins (E : Env) (L : List Line) (whence : Str) (r : NarInfo)
    (hL : ∀ l ∈ L, l.WellFormed)
    (hparse : NarInfo.parse E (renderLines L) whence = Except.ok r) :
    (∀ v, lastValue "StorePath".toList L = some v → r.path = v)
      ∧ (∀ v, lastValue "URL".toList L = some v → r.url = v)
      ∧ (∀ v, lastValue "Compression".toList L = some v →
          r.compression = if v = [] then "bzip2".toList else v)
      ∧ (∀ v, lastValue "FileHash".toList L = some v →
          parseHashField E v = Except.ok r.fileHash)
      ∧ (∀ v, lastValue "FileSize".toList L = some v → E.string2Int v = some r.fileSize)
      ∧ (∀ v, lastValue "NarHash".toList L = some v →
          parseHashField E v = Except.ok r.narHash)
      ∧ (∀ v, lastValue "NarSize".toList L = some v → E.string2Int v = some r.narSize)
      ∧ (∀ v, lastValue "Deriver".toList L = some v →
          r.deriver = E.nixStore ++ "/".toList ++ v)
      ∧ (∀ v, lastValue "System".toList L = some v → r.system = v)
      ∧ (∀ l ∈ L, l.name = "Sig".toList → l.value ∈ r.sigs.toList)
      ∧ (∀ name value r₁ r₁' r₂, name ≠ "References".toList →
          processField E name value r₁ = Except.ok r₁' →
          ∃ r₂', processField E name value r₂ = Except.ok r₂') := by
  obtain ⟨r₀, hp, hfin⟩ := parse_renderLines_ok hL hparse
  obtain ⟨-, -, rfl⟩ := finish_ok hfin
  refine ⟨?_, ?_, ?_, ?_, ?_, ?_, ?_, ?_, ?_, ?_, ?_⟩
  · exact (processFields_last E "StorePath".toList NarInfo.path (fun v p => p = v)
      (fun v r r' h => by
        rw [processField_StorePath] at h
        split_ifs at h
        · exact absurd h (by simp [corrupt])
        · cases h; rfl)
      (fun name v r r' hn h => (processField_frame h).1 hn) L _ _ hp).1
  · exact (processFields_last E "URL".toList NarInfo.url (fun v p => p = v)
      (fun v r r' h => by rw [processField_URL] at h; cases h; rfl)
      (fun name v r r' hn h => (processField_frame h).2.1 hn) L _ _ hp).1
  · intro v hv
    have := (processFields_last E "Compression".toList NarInfo.compression (fun v p => p = v)
      (fun v r r' h => by rw [processField_Compression] at h; cases h; rfl)
      (fun name v r r' hn h => (processField_frame h).2.2.1 hn) L _ _ hp).1 v hv
    simp only [this]
  · exact (processFields_last E "FileHash".toList NarInfo.fileHash
      (fun v p => parseHashField E v = Except.ok p)
      (fun v r r' h => by
        rw [processField_FileHash] at h
        cases hh : parseHashField E v with
        | error e => rw [hh] at h; exact absurd h (by simp)
        | ok hash => rw [hh] at h; cases h; rfl)
      (fun name v r r' hn h => (processField_frame h).2.2.2.1 hn) L _ _ hp).1
  · exact (processFields_last E "FileSize".toList NarInfo.fileSize
      (fun v p => E.string2Int v = some p)
      (fun v r r' h => by
        rw [processField_FileSize] at h
        cases hh : E.string2Int v with
        | none => rw [hh] at h; exact absurd h (by simp [corrupt])
        | some n => rw [hh] at h; cases h; rfl)
      (fun name v r r' hn h => (processField_frame h).2.2.2.2.1 hn) L _ _ hp).1
  · exact (processFields_last E "NarHash".toList NarInfo.narHash
      (fun v p => parseHashField E v = Except.ok p)
      (fun v r r' h => by
        rw [processField_NarHash] at h
        cases hh : parseHashField E v with
        | error e => rw [hh] at h; exact absurd h (by simp)
        | ok hash => rw [hh] at h; cases h; rfl)
      (fun name v r r' hn h => (processField_frame h).2.2.2.2.2.1 hn) L _ _ hp).1
  · exact (processFields_last E "NarSize".toList NarInfo.narSize
      (fun v p => E.string2Int v = some p)
      (fun v r r' h => by
        rw [processField_NarSize] at h
        cases hh : E.string2Int v with
        | none => rw [hh] at h; exact absurd h (by simp [corrupt])
        | some n => rw [hh] at h; cases h; rfl)
      (fun name v r r' hn h => (processField_frame h).2.2.2.2.2.2.1 hn) L _ _ hp).1
  · exact (processFields_last E "Deriver".toList NarInfo.deriver
      (fun v p => p = E.nixStore ++ "/".toList ++ v)
      (fun v r r' h => by
        rw [processField_Deriver] at h
        split_ifs at h
        · exact absurd h (by simp [corrupt])
        · cases h; rfl)
      (fun name v r r' hn h => (processField_frame h).2.2.2.2.2.2.2.2.1 hn) L _ _ hp).1
  · exact (processFields_last E "System".toList NarInfo.system (fun v p => p = v)
      (fun v r r' h => by rw [processField_System] at h; cases h; rfl)
      (fun name v r r' hn h => (processField_frame h).2.2.2.2.2.2.2.2.2.1 hn) L _ _ hp).1
  · exact (processFields_sigs E L _ _ hp).2
  · intro name value r₁ r₁' r₂ hn h
    exact processField_accepts_any_record h hn r₂

set_option maxRecDepth 100000 in
/-- Two `URL` lines and two `Compression` lines: the record holds the values
of the second lines. -/
theorem last_write_wins_witness :
    ∃ r, NarInfo.parse sampleEnv
          (renderLines
            [⟨"StorePath".toList, ' ', "/nix/store/0123456789abcdfghijklmnpqrsvwxyz-foo".toList⟩,
              ⟨"URL".toList, ' ', "nar/first.nar".toList⟩,
              ⟨"Compression".toList, ' ', "xz".toList⟩,
              ⟨"URL".toList, ' ', "nar/second.nar".toList⟩,
              ⟨"Compression".toList, ' ', "gzip".toList⟩]) []
          = Except.ok r
        ∧ r.url = "nar/second.nar".toList ∧ r.compression = "gzip".toList :=
  ⟨{ NarInfo.init with
      path := "/nix/store/0123456789abcdfghijklmnpqrsvwxyz-foo".toList,
      url := "nar/second.nar".toList, compression := "gzip".toList }, by rfl,
    (last_write_wins sampleEnv
      [⟨"StorePath".toList, ' ', "/nix/store/0123456789abcdfghijklmnpqrsvwxyz-foo".toList⟩,
        ⟨"URL".toList, ' ', "nar/first.nar".toList⟩,
        ⟨"Compression".toList, ' ', "xz".toList⟩,
        ⟨"URL".toList, ' ', "nar/second.nar".toList⟩,
        ⟨"Compression".toList, ' ', "gzip".toList⟩] [] _ (by decide) (by rfl)).2.1 _ (by rfl),
    rfl⟩

set_option maxRecDepth 100000 in
/-- C17 fails as stated: this text has two `Compression` lines, the last of
which gives the empty value, and the constructor accepts it; the compression
of the record is `bzip2`, not the empty value of the last line (nor the value
`xz` of the line before). -/
theorem last_compression_line_empty :
    NarInfo.processed sampleEnv
        ("StorePath: /nix/store/0123456789abcdfghijklmnpqrsvwxyz-foo\n".toList
          ++ "URL: nar/foo.nar\nCompression: xz\nCompression: \n".toList)
        = [("StorePath".toList, "/nix/store/0123456789abcdfghijklmnpqrsvwxyz-foo".toList),
            ("URL".toList, "nar/foo.nar".toList), ("Compression".toList, "xz".toList),
            ("Compression".toList, [])]
      ∧ NarInfo.parse sampleEnv
          ("StorePath: /nix/store/0123456789abcdfghijklmnpqrsvwxyz-foo\n".toList
            ++ "URL: nar/foo.nar\nCompression: xz\nCompression: \n".toList) []
        = Except.ok { NarInfo.init with
            path := "/nix/store/0123456789abcdfghijklmnpqrsvwxyz-foo".toList,
            url := "nar/foo.nar".toList, compression := "bzip2".toList } :=
  ⟨by rfl, by rfl⟩

/-! ## Parsing the text of a parsed record -/

theorem append_sep_inj (c : Char) : ∀ (a b x y : Str), c ∉ a → c ∉ b →
    a ++ c :: x = b ++ c :: y → a = b ∧ x = y
  | [], [], x, y, _, _, h => by simpa using h
  | [], d :: b, x, y, _, hb, h => by
    simp only [List.nil_append, List.cons_append, List.cons.injEq] at h
    exact absurd (h.1 ▸ List.mem_cons_self _ _) hb
  | d :: a, [], x, y, ha, _, h => by
    simp only [List.nil_append, List.cons_append, List.cons.injEq] at h
    exact absurd (h.1 ▸ List.mem_cons_self _ _) ha
  | d :: a, e :: b, x, y, ha, hb, h => by
    simp only [List.cons_append, List.cons.injEq] at h
    obtain ⟨h₁, h₂⟩ := append_sep_inj c a b x y
      (fun hm => ha (List.mem_cons_of_mem _ hm)) (fun hm => hb (List.mem_cons_of_mem _ hm)) h.2
    exact ⟨by rw [h.1, h₁], h₂⟩

theorem digitChar_value (k : Nat) (hk : k < 10) : (Nat.digitChar k).toNat - 48 = k := by
  interval_cases k <;> rfl

theorem digitChar_ne_semicolon (k : Nat) (hk : k < 10) : Nat.digitChar k ≠ ';' := by
  interval_cases k <;> decide

theorem toDigitsCore_no_semicolon : ∀ (fuel n : Nat) (ds : List Char),
    ';' ∉ ds → ';' ∉ Nat.toDigitsCore 10 fuel n ds
  | 0, n, ds, h => by simpa [Nat.toDigitsCore] using h
  | fuel + 1, n, ds, h => by
    have hd : ';' ∉ Nat.digitChar (n % 10) :: ds := by
      intro hm
      rcases List.mem_cons.1 hm with e | e
      · exact digitChar_ne_semicolon _ (Nat.mod_lt _ (by decide)) e.symm
      · exact h e
    simp only [Nat.toDigitsCore]
    split_ifs
    · exact hd
    · exact toDigitsCore_no_semicolon fuel _ _ hd

theorem std_to_string_no_semicolon (n : Nat) : ';' ∉ std_to_string n :=
  toDigitsCore_no_semicolon _ _ _ (by simp)

theorem toDigitsCore_value : ∀ (fuel n : Nat) (ds : List Char), n < fuel →
    (Nat.toDigitsCore 10 fuel n ds).foldl (fun a c => a * 10 + (c.toNat - 48)) 0
      = ds.foldl (fun a c => a * 10 + (c.toNat - 48)) n
  | 0, n, ds, h => absurd h (Nat.not_lt_zero _)
  | fuel + 1, n, ds, h => by
    simp only [Nat.toDigitsCore]
    by_cases h0 : n / 10 = 0
    · rw [if_pos h0]
      have hn : n < 10 := by omega
      simp only [List.foldl_cons, Nat.zero_mul, Nat.zero_add, Nat.mod_eq_of_lt hn,
        digitChar_value n hn]
    · rw [if_neg h0, toDigitsCore_value fuel (n / 10) _ (by omega)]
      simp only [List.foldl_cons, digitChar_value _ (Nat.mod_lt _ (by decide : 10 > 0))]
      congr 1
      omega

theorem std_to_string_injective {a b : Nat} (h : std_to_string a = std_to_string b) :
    a = b := by
  have ha := toDigitsCore_value (a + 1) a [] (Nat.lt_succ_self _)
  have hb := toDigitsCore_value (b + 1) b [] (Nat.lt_succ_self _)
  simp only [List.foldl_nil] at ha hb
  have h' : Nat.toDigitsCore 10 (a + 1) a [] = Nat.toDigitsCore 10 (b + 1) b [] := h
  rw [← ha, ← hb, h']

theorem concatStringsSep_cons (sep x : Str) (xs : List Str) :
    concatStringsSep sep (x :: xs)
      = x ++ (if xs = [] then [] else sep ++ concatStringsSep sep xs) := by
  cases xs with
  | nil => simp [concatStringsSep]
  | cons y ys => simp [concatStringsSep, List.append_assoc]

theorem concatStringsSep_comma_inj : ∀ (l₁ l₂ : List Str),
    (∀ p ∈ l₁, p ≠ [] ∧ ',' ∉ p) → (∀ p ∈ l₂, p ≠ [] ∧ ',' ∉ p) →
    concatStringsSep ",".toList l₁ = concatStringsSep ",".toList l₂ → l₁ = l₂
  | [], [], _, _, _ => rfl
  | [], y :: ys, _, h₂, h => by
    rw [concatStringsSep_cons] at h
    have hy := (h₂ y (List.mem_cons_self _ _)).1
    have : y = [] := by
      have h' := congrArg List.length h
      simp only [concatStringsSep, List.length_nil, List.length_append] at h'
      exact List.length_eq_zero.1 (by omega)
    exact absurd this hy
  | x :: xs, [], h₁, _, h => by
    rw [concatStringsSep_cons] at h
    have hx := (h₁ x (List.mem_cons_self _ _)).1
    have : x = [] := by
      have h' := congrArg List.length h
      simp only [concatStringsSep, List.length_nil, List.length_append] at h'
      exact List.length_eq_zero.1 (by omega)
    exact absurd this hx
  | x :: xs, y :: ys, h₁, h₂, h => by
    have hx := (h₁ x (List.mem_cons_self _ _)).2
    have hy := (h₂ y (List.mem_cons_self _ _)).2
    have hxs : ∀ p ∈ xs, p ≠ [] ∧ ',' ∉ p := fun p hp => h₁ p (List.mem_cons_of_mem _ hp)
    have hys : ∀ p ∈ ys, p ≠ [] ∧ ',' ∉ p := fun p hp => h₂ p (List.mem_cons_of_mem _ hp)
    have hsep : ∀ (z : Str), ",".toList ++ z = ',' :: z := fun _ => rfl
    rw [concatStringsSep_cons, concatStringsSep_cons] at h
    by_cases ex : xs = [] <;> by_cases ey : ys = []
    · simp only [ex, ey, if_true, List.append_nil] at h
      rw [h, ex, ey]
    · simp only [ex, ey, if_true, if_false, List.append_nil, hsep] at h
      exact absurd (h ▸ (List.mem_append_right y (List.mem_cons_self _ _))) hx
    · simp only [ex, ey, if_true, if_false, List.append_nil, hsep] at h
      exact absurd (h ▸ (List.mem_append_right x (List.mem_cons_self _ _))) hy
    · simp only [ex, ey, if_false, hsep] at h
      obtain ⟨e₁, e₂⟩ := append_sep_inj ',' x y _ _ hx hy h
      rw [e₁, concatStringsSep_comma_inj xs ys hxs hys e₂]

/-- C19: the fingerprint determines the members it is built from. For two
records whose paths hold no `;`, whose references are non-empty strings
without `,`, whose nar hash types are printed without `:` and `;` and told
apart by `printHashType`, and whose nar hashes are printed without `;` and,
when of the same type, told apart by `printHash32`: equal fingerprints give
equal path, nar hash, nar size and references. -/
theorem fingerprint_binds (E : Env) (r₁ r₂ : NarInfo)
    (hp₁ : ';' ∉ r₁.path) (hp₂ : ';' ∉ r₂.path)
    (hr₁ : ∀ p ∈ r₁.references.toList, p ≠ [] ∧ ',' ∉ p)
    (hr₂ : ∀ p ∈ r₂.references.toList, p ≠ [] ∧ ',' ∉ p)
    (hT₁ : ':' ∉ E.printHashType r₁.narHash.type ∧ ';' ∉ E.printHashType r₁.narHash.type)
    (hT₂ : ':' ∉ E.printHashType r₂.narHash.type ∧ ';' ∉ E.printHashType r₂.narHash.type)
    (hH₁ : ';' ∉ E.printHash32 r₁.narHash) (hH₂ : ';' ∉ E.printHash32 r₂.narHash)
    (hTinj : E.printHashType r₁.narHash.type = E.printHashType r₂.narHash.type →
      r₁.narHash.type = r₂.narHash.type)
    (hHinj : r₁.narHash.type = r₂.narHash.type →
      E.printHash32 r₁.narHash = E.printHash32 r₂.narHash → r₁.narHash = r₂.narHash)
    (hfp : r₁.fingerprint E = r₂.fingerprint E) :
    r₁.path = r₂.path ∧ r₁.narHash = r₂.narHash ∧ r₁.narSize = r₂.narSize
      ∧ r₁.references = r₂.references := by
  have hshape : ∀ r : NarInfo, r.fingerprint E
      = '1' :: ';' :: (r.path ++ ';' :: (E.printHashType r.narHash.type
          ++ ':' :: (E.printHash32 r.narHash ++ ';' :: (std_to_string r.narSize
          ++ ';' :: concatStringsSep ",".toList r.references.toList)))) := by
    intro r
    simp [NarInfo.fingerprint, List.append_assoc]
  rw [hshape r₁, hshape r₂] at hfp
  simp only [List.cons.injEq, true_and] at hfp
  obtain ⟨hpath, h₁⟩ := append_sep_inj ';' _ _ _ _ hp₁ hp₂ hfp
  obtain ⟨htype, h₂⟩ := append_sep_inj ':' _ _ _ _ hT₁.1 hT₂.1 h₁
  obtain ⟨hhash, h₃⟩ := append_sep_inj ';' _ _ _ _ hH₁ hH₂ h₂
  obtain ⟨hsize, h₄⟩ := append_sep_inj ';' _ _ _ _ (std_to_string_no_semicolon _)
    (std_to_string_no_semicolon _) h₃
  exact ⟨hpath, hHinj (hTinj htype) hhash, std_to_string_injective hsize,
    Subtype.ext (concatStringsSep_comma_inj _ _ hr₁ hr₂ h₄)⟩

/-- The two sample records have the same fingerprint, and the same path, nar
hash, nar size and references. -/
theorem fingerprint_binds_witness :
    exampleRecord.path = exampleRecordOther.path
      ∧ exampleRecord.narHash = exampleRecordOther.narHash
      ∧ exampleRecord.narSize = exampleRecordOther.narSize
      ∧ exampleRecord.references = exampleRecordOther.references :=
  fingerprint_binds sampleEnv exampleRecord exampleRecordOther (by decide) (by decide)
    (by decide) (by decide) (by decide) (by decide) (by decide) (by decide)
    (fun _ => rfl) (fun _ _ => rfl) (by rfl)

end nix
